import Mathlib

/-!
Verification of the grid A* planner in `src/dataset/dataset-generator.py`
(class `AStarPlanner`).

The Python program is shallowly embedded:
* Python floats are modelled as exact rationals (`ℚ`); values of the form
  `a + b·√2` (the accumulated step costs, whose summands are `1` and
  `math.sqrt(2)`) are carried as pairs `(a, b) : ℚ × ℚ`, and the Euclidean
  heuristic `math.hypot(dx, dy)` is carried as its square `dx² + dy² : ℕ`.
  All comparisons the program performs on such values are decided exactly by
  verified decision procedures (`s2_nonneg`, `fLe`, ...) that provably agree
  with the real-number comparisons.
* Python's `round` (banker's rounding, round-half-to-even) is `pyRound`.
* Python list indexing (negative wrap-around, `IndexError` on overflow) is
  `pyGet`; `min`/`max` of a possibly empty list raise `ValueError` (`pyMin`).
* Python dicts are association lists with insertion-order iteration:
  assignment to an existing key updates in place, assignment to a fresh key
  appends (`dictSet`), `min(d, key=f)` returns the first key attaining the
  minimum of `f` in iteration order (`argminKey`).
* Exceptions are modelled with `Except PyErr`; the unbounded `while True`
  loop is modelled with explicit fuel, `.error .nonterm` standing for
  non-termination (a fuel value provably sufficient for every terminating
  run is supplied by `planFuel`).
-/

namespace NeuroPF

/-- Python exceptions (and fuel exhaustion standing for non-termination). -/
inductive PyErr where
  | valueError
  | zeroDivisionError
  | indexError
  | keyError
  | nonterm
deriving DecidableEq, Repr

/-- Python 3 `round`: round half to even (banker's rounding).  `Rat.floor`
is the integer floor of a rational (it agrees with `Int.floor`, see
`pyRound_eq`). -/
def pyRound (q : ℚ) : ℤ :=
  if q - (Rat.floor q : ℚ) < 1/2 then Rat.floor q
  else if 1/2 < q - (Rat.floor q : ℚ) then Rat.floor q + 1
  else if Rat.floor q % 2 = 0 then Rat.floor q else Rat.floor q + 1

/-- Python list indexing `l[i]`: negative indices count from the end,
out-of-range indices raise `IndexError`. -/
def pyGet {α : Type} (l : List α) (i : ℤ) : Except PyErr α :=
  let j : ℤ := if i < 0 then i + l.length else i
  if j < 0 then .error .indexError
  else
    match l.get? j.toNat with
    | some a => .ok a
    | none => .error .indexError

/-- Python `min` over a list; raises `ValueError` on the empty list. -/
def pyMin : List ℚ → Except PyErr ℚ
  | [] => .error .valueError
  | q :: qs => .ok (qs.foldl min q)

/-- Python `max` over a list; raises `ValueError` on the empty list. -/
def pyMax : List ℚ → Except PyErr ℚ
  | [] => .error .valueError
  | q :: qs => .ok (qs.foldl max q)

/-- Lookup in a Python dict modelled as an association list (keys unique). -/
def dictLookup {α : Type} (d : List (ℤ × α)) (k : ℤ) : Option α :=
  match d.find? (fun e => e.1 = k) with
  | some e => some e.2
  | none => none

/-- Python dict assignment `d[k] = v`: update in place if the key exists
(preserving its position in iteration order), append otherwise. -/
def dictSet {α : Type} (d : List (ℤ × α)) (k : ℤ) (v : α) : List (ℤ × α) :=
  match d with
  | [] => [(k, v)]
  | e :: es => if e.1 = k then (k, v) :: es else e :: dictSet es k v

/-- Python `del d[k]`. -/
def dictDel {α : Type} (d : List (ℤ × α)) (k : ℤ) : List (ℤ × α) :=
  match d with
  | [] => []
  | e :: es => if e.1 = k then es else e :: dictDel es k

/-- A search node (`AStarPlanner.Node`): grid indices, accumulated cost and
the predecessor's cell identifier (`-1` for the start node).  The float
`cost` is carried exactly as `(a, b)` standing for the real `a + b·√2`. -/
structure Node where
  x : ℤ
  y : ℤ
  cost : ℚ × ℚ
  parent_index : ℤ
deriving DecidableEq, Repr

/-- The planner state built by `AStarPlanner.__init__` via
`calc_obstacle_map`: resolution, robot radius, rounded world bounding box,
grid widths and the boolean occupancy map (`true` = blocked). -/
structure AStarPlanner where
  resolution : ℚ
  rr : ℚ
  min_x : ℤ
  min_y : ℤ
  max_x : ℤ
  max_y : ℤ
  x_width : ℤ
  y_width : ℤ
  obstacle_map : List (List Bool)
deriving DecidableEq, Repr

/-- The real value denoted by an exact cost pair: `c.1 + c.2·√2`. -/
noncomputable def costValR (c : ℚ × ℚ) : ℝ :=
  (c.1 : ℝ) + (c.2 : ℝ) * Real.sqrt 2

/-- Exact addition of cost values. -/
def costAdd (c d : ℚ × ℚ) : ℚ × ℚ := (c.1 + d.1, c.2 + d.2)

/-- The 8-connected motion model (`get_motion_model`): `(dx, dy, cost)`
with `math.sqrt(2)` carried exactly as the pair `(0, 1)`. -/
def get_motion_model : List (ℤ × ℤ × (ℚ × ℚ)) :=
  [(1, 0, (1, 0)),
   (0, 1, (1, 0)),
   (-1, 0, (1, 0)),
   (0, -1, (1, 0)),
   (-1, -1, (0, 1)),
   (-1, 1, (0, 1)),
   (1, -1, (0, 1)),
   (1, 1, (0, 1))]

/-- Decide `0 ≤ a + b·√2` for rationals `a`, `b`. -/
def s2_nonneg (a b : ℚ) : Bool :=
  if 0 ≤ b then decide (0 ≤ a) || decide (a ^ 2 ≤ 2 * b ^ 2)
  else decide (0 ≤ a) && decide (2 * b ^ 2 ≤ a ^ 2)

/-- Decide `0 < a + b·√2`. -/
def s2_pos (a b : ℚ) : Bool := !(s2_nonneg (-a) (-b))

/-- Decide `a + b·√2 ≤ √m` for `m : ℕ`. -/
def s2r_le (a b : ℚ) (m : ℕ) : Bool :=
  !(s2_pos a b) || s2_nonneg ((m : ℚ) - a ^ 2 - 2 * b ^ 2) (-(2 * a * b))

/-- Decide `√m ≤ a + b·√2` for `m : ℕ`. -/
def r_s2_le (m : ℕ) (a b : ℚ) : Bool :=
  s2_nonneg a b && s2_nonneg (a ^ 2 + 2 * b ^ 2 - (m : ℚ)) (2 * a * b)

/-- Decide `u1 + v1·√2 + √m1 ≤ u2 + v2·√2 + √m2`, the comparison the
program performs (with floats) on values `f = cost + heuristic`. -/
def fLe (u1 v1 : ℚ) (m1 : ℕ) (u2 v2 : ℚ) (m2 : ℕ) : Bool :=
  let a := u1 - u2
  let b := v1 - v2
  if s2_pos a b then
    if m1 ≤ m2 then
      r_s2_le (4 * m1 * m2) ((m1 : ℚ) + (m2 : ℚ) - a ^ 2 - 2 * b ^ 2) (-(2 * a * b))
    else false
  else
    if m1 ≤ m2 then true
    else s2r_le ((m1 : ℚ) + (m2 : ℚ) - a ^ 2 - 2 * b ^ 2) (-(2 * a * b)) (4 * m1 * m2)

/-- Decide `u1 + v1·√2 + √m1 < u2 + v2·√2 + √m2`. -/
def fLt (u1 v1 : ℚ) (m1 : ℕ) (u2 v2 : ℚ) (m2 : ℕ) : Bool :=
  !(fLe u2 v2 m2 u1 v1 m1)

/-- Decide `c.1 + c.2·√2 > d.1 + d.2·√2` (the program's
`open_set[n_id].cost > node.cost` float comparison, made exact). -/
def costGt (c d : ℚ × ℚ) : Bool := s2_pos (c.1 - d.1) (c.2 - d.2)

/-- Method `calc_grid_position`: `pos = index * self.resolution + min_position`. -/
def calc_grid_position (g : AStarPlanner) (index : ℤ) (min_position : ℤ) : ℚ :=
  index * g.resolution + min_position

/-- Method `calc_xy_index`: `round((position - min_pos) / self.resolution)`. -/
def calc_xy_index (g : AStarPlanner) (position : ℚ) (min_pos : ℤ) : ℤ :=
  pyRound ((position - min_pos) / g.resolution)

/-- Method `calc_grid_index`:
`(node.y - self.min_y) * self.x_width + (node.x - self.min_x)`. -/
def calc_grid_index (g : AStarPlanner) (node : Node) : ℤ :=
  (node.y - g.min_y) * g.x_width + (node.x - g.min_x)

/-- The square of `calc_heuristic(n1, n2) = 1.0 * math.hypot(n1.x - n2.x,
n1.y - n2.y)`; the heuristic's real value is the square root of this. -/
def calc_heuristic_sq (n1 n2 : Node) : ℕ :=
  ((n1.x - n2.x) ^ 2 + (n1.y - n2.y) ^ 2).toNat

/-- The real value of the heuristic `calc_heuristic`. -/
noncomputable def calc_heuristicR (n1 n2 : Node) : ℝ :=
  Real.sqrt (calc_heuristic_sq n1 n2)

/-- The real value of the selection key
`open_set[o].cost + calc_heuristic(goal_node, open_set[o])`. -/
noncomputable def fvalR (goal : Node) (e : ℤ × Node) : ℝ :=
  (e.2.cost.1 : ℝ) + (e.2.cost.2 : ℝ) * Real.sqrt 2 +
    Real.sqrt ((calc_heuristic_sq goal e.2 : ℕ) : ℝ)

/-- Method `verify_node`: world-coordinate bounds checks followed by the
occupancy-map lookup `self.obstacle_map[node.x][node.y]` (which, as in
Python, raises `IndexError` when the index is outside the list). -/
def verify_node (g : AStarPlanner) (node : Node) : Except PyErr Bool :=
  let px := calc_grid_position g node.x g.min_x
  let py := calc_grid_position g node.y g.min_y
  if px < g.min_x then .ok false
  else if py < g.min_y then .ok false
  else if g.max_x ≤ px then .ok false
  else if g.max_y ≤ py then .ok false
  else do
    let row ← pyGet g.obstacle_map node.x
    let b ← pyGet row node.y
    if b then pure false else pure true

/-- One obstacle-map cell of `calc_obstacle_map`: the inner `for iox, ioy in
zip(ox, oy)` loop with early `break` marks the cell iff some obstacle point
satisfies `math.hypot(iox - x, ioy - y) <= self.rr`; for floats modelled as
rationals that comparison is `0 ≤ rr ∧ (iox - x)² + (ioy - y)² ≤ rr²`. -/
def obstacleCell (pts : List (ℚ × ℚ)) (rr x y : ℚ) : Bool :=
  pts.any (fun p =>
    decide (0 ≤ rr) && decide ((p.1 - x) ^ 2 + (p.2 - y) ^ 2 ≤ rr ^ 2))

/-- `AStarPlanner.__init__` together with `calc_obstacle_map`: rounded
bounding box of the obstacle points (`min`/`max` raise `ValueError` on an
empty list), widths `round((max - min) / resolution)` (raising
`ZeroDivisionError` when `resolution = 0`, at the division Python performs
there), and the per-cell occupancy map. -/
def calc_obstacle_map (resolution rr : ℚ) (ox oy : List ℚ) :
    Except PyErr AStarPlanner := do
  let min_x := pyRound (← pyMin ox)
  let min_y := pyRound (← pyMin oy)
  let max_x := pyRound (← pyMax ox)
  let max_y := pyRound (← pyMax oy)
  if resolution = 0 then throw .zeroDivisionError
  else
    let x_width := pyRound (((max_x : ℚ) - (min_x : ℚ)) / resolution)
    let y_width := pyRound (((max_y : ℚ) - (min_y : ℚ)) / resolution)
    let pts := List.zip ox oy
    let obstacle_map :=
      (List.range x_width.toNat).map (fun (ix : ℕ) =>
        (List.range y_width.toNat).map (fun (iy : ℕ) =>
          obstacleCell pts rr ((ix : ℚ) * resolution + ((min_x : ℤ) : ℚ))
            ((iy : ℚ) * resolution + ((min_y : ℤ) : ℚ))))
    pure ⟨resolution, rr, min_x, min_y, max_x, max_y, x_width, y_width,
      obstacle_map⟩

/-- The comparison key `min(open_set, key=...)` uses: `f`-value of an open
entry, kept exactly as (cost pair, squared heuristic). -/
def fval (goal : Node) (e : ℤ × Node) : (ℚ × ℚ) × ℕ :=
  (e.2.cost, calc_heuristic_sq goal e.2)

/-- Tail of Python's `min` over dict keys in iteration order: keep the
current best, replace it only on a strictly smaller key value. -/
def argminAux (goal : Node) : List (ℤ × Node) → (ℤ × Node) → ℤ
  | [], best => best.1
  | e :: rest, best =>
      let fe := fval goal e
      let fb := fval goal best
      if fLt fe.1.1 fe.1.2 fe.2 fb.1.1 fb.1.2 fb.2 then argminAux goal rest e
      else argminAux goal rest best

/-- `min(open_set, key=lambda o: open_set[o].cost + calc_heuristic(goal_node,
open_set[o]))` for a nonempty dict (the empty case is guarded in `planning`). -/
def argminKey (goal : Node) (d : List (ℤ × Node)) : ℤ :=
  match d with
  | [] => 0
  | e :: rest => argminAux goal rest e

/-- The neighbour-expansion `for i, _ in enumerate(self.motion)` loop body of
`planning`: build the neighbour node, skip it unless `verify_node` accepts it
and its id is not closed, then insert it into the open dict or replace a
costlier entry. -/
def expand (g : AStarPlanner) (current : Node) (c_id : ℤ)
    (closed : List (ℤ × Node)) :
    List (ℤ × Node) → List (ℤ × ℤ × (ℚ × ℚ)) → Except PyErr (List (ℤ × Node))
  | openl, [] => .ok openl
  | openl, m :: rest => do
      let node : Node :=
        ⟨current.x + m.1, current.y + m.2.1, costAdd current.cost m.2.2, c_id⟩
      let n_id := calc_grid_index g node
      let ok ← verify_node g node
      if !ok then expand g current c_id closed openl rest
      else if (dictLookup closed n_id).isSome then
        expand g current c_id closed openl rest
      else
        match dictLookup openl n_id with
        | none => expand g current c_id closed (dictSet openl n_id node) rest
        | some old =>
            if costGt old.cost node.cost then
              expand g current c_id closed (dictSet openl n_id node) rest
            else expand g current c_id closed openl rest

/-- One iteration of the `while True` loop of `planning`: either the loop
breaks (`.inl`: the final goal node and closed set, covering both the
empty-open-set break and the goal-found break) or it continues with updated
open and closed sets (`.inr`). -/
def astarIter (g : AStarPlanner) (goal : Node)
    (openl closed : List (ℤ × Node)) :
    Except PyErr ((Node × List (ℤ × Node)) ⊕ (List (ℤ × Node) × List (ℤ × Node))) :=
  if openl = [] then .ok (.inl (goal, closed))
  else
    let c_id := argminKey goal openl
    match dictLookup openl c_id with
    | none => .error .keyError
    | some current =>
        if current.x = goal.x ∧ current.y = goal.y then
          .ok (.inl (⟨goal.x, goal.y, current.cost, current.parent_index⟩, closed))
        else do
          let openl1 := dictDel openl c_id
          let closed1 := dictSet closed c_id current
          let openl2 ← expand g current c_id closed1 openl1 get_motion_model
          pure (.inr (openl2, closed1))

/-- The fuelled `while True` loop of `planning`. -/
def aloop (g : AStarPlanner) (goal : Node) :
    ℕ → List (ℤ × Node) → List (ℤ × Node) →
    Except PyErr (Node × List (ℤ × Node))
  | 0, _, _ => .error .nonterm
  | fuel + 1, openl, closed => do
      match ← astarIter g goal openl closed with
      | .inl r => pure r
      | .inr s => aloop g goal fuel s.1 s.2

/-- Fuel provably sufficient for every terminating run of the loop (the loop
performs at most one iteration per distinct closable cell identifier plus
the final breaking iteration). -/
def planFuel (g : AStarPlanner) : ℕ :=
  g.x_width.toNat * g.y_width.toNat + 3

/-- The parent-chain loop of `calc_final_path`, with fuel (`closed_set` is
finite, so a run needing more than `|closed| + 1` steps would revisit an
entry and Python would not terminate); a missing parent raises `KeyError`
as `closed_set[parent_index]` does. -/
def cfp_loop (g : AStarPlanner) (closed : List (ℤ × Node)) :
    ℕ → ℤ → List ℚ → List ℚ → Except PyErr (List ℚ × List ℚ)
  | 0, parent_index, rx, ry =>
      if parent_index = -1 then .ok (rx, ry) else .error .nonterm
  | fuel + 1, parent_index, rx, ry =>
      if parent_index = -1 then .ok (rx, ry)
      else
        match dictLookup closed parent_index with
        | none => .error .keyError
        | some n =>
            cfp_loop g closed fuel n.parent_index
              (rx ++ [calc_grid_position g n.x g.min_x])
              (ry ++ [calc_grid_position g n.y g.min_y])

/-- Method `calc_final_path`: start from the goal node's world position and
follow `parent_index` links through the closed set. -/
def calc_final_path (g : AStarPlanner) (goal_node : Node)
    (closed : List (ℤ × Node)) : Except PyErr (List ℚ × List ℚ) :=
  cfp_loop g closed (closed.length + 1) goal_node.parent_index
    [calc_grid_position g goal_node.x g.min_x]
    [calc_grid_position g goal_node.y g.min_y]

/-- Method `planning`: build start and goal nodes from world coordinates,
run the A* loop from the singleton open set, then reconstruct the path. -/
def planning (g : AStarPlanner) (sx sy gx gy : ℚ) :
    Except PyErr (List ℚ × List ℚ) := do
  let start_node : Node :=
    ⟨calc_xy_index g sx g.min_x, calc_xy_index g sy g.min_y, (0, 0), -1⟩
  let goal_node : Node :=
    ⟨calc_xy_index g gx g.min_x, calc_xy_index g gy g.min_y, (0, 0), -1⟩
  let openl0 := [(calc_grid_index g start_node, start_node)]
  let r ← aloop g goal_node (planFuel g) openl0 []
  calc_final_path g r.1 r.2

/-- Total step cost, in world coordinates, of a returned waypoint list:
the sum of the Euclidean lengths of consecutive steps. -/
noncomputable def pathCostR : List ℚ → List ℚ → ℝ
  | x1 :: x2 :: xs, y1 :: y2 :: ys =>
      Real.sqrt (((x1 : ℝ) - x2) ^ 2 + ((y1 : ℝ) - y2) ^ 2) +
        pathCostR (x2 :: xs) (y2 :: ys)
  | _, _ => 0

/-- A grid cell, as a pair of integer indices. -/
def Cell : Type := ℤ × ℤ

instance : DecidableEq Cell := instDecidableEqProd

/-- The occupancy-map entry of a cell (meaningful for in-range indices). -/
def cellBlocked (g : AStarPlanner) (c : Cell) : Bool :=
  (g.obstacle_map.getD c.1.toNat []).getD c.2.toNat false

/-- A cell of the free-space graph: inside the grid and not blocked. -/
def freeCell (g : AStarPlanner) (c : Cell) : Prop :=
  0 ≤ c.1 ∧ c.1 < g.x_width ∧ 0 ≤ c.2 ∧ c.2 < g.y_width ∧
    cellBlocked g c = false

instance (g : AStarPlanner) (c : Cell) : Decidable (freeCell g c) :=
  inferInstanceAs (Decidable (0 ≤ c.1 ∧ c.1 < g.x_width ∧ 0 ≤ c.2 ∧
    c.2 < g.y_width ∧ cellBlocked g c = false))

/-- The motion-model entry leading from cell `a` to cell `b`, when the two
cells are 8-adjacent. -/
def motionOf (a b : Cell) : Option (ℤ × ℤ × (ℚ × ℚ)) :=
  get_motion_model.find? (fun m => b.1 - a.1 = m.1 ∧ b.2 - a.2 = m.2.1)

/-- 8-adjacency of two cells. -/
def adjStep (a b : Cell) : Prop := (motionOf a b).isSome

instance (a b : Cell) : Decidable (adjStep a b) :=
  inferInstanceAs (Decidable ((motionOf a b).isSome = true))

/-- Exact step cost between two cells: `1` for axis-aligned unit steps and
`√2` for diagonal steps (as the pair encoding `a + b·√2`). -/
def stepW (a b : Cell) : ℚ × ℚ :=
  match motionOf a b with
  | some m => m.2.2
  | none => (0, 0)

/-- Exact total step cost of a cell sequence. -/
def chainCost : List Cell → ℚ × ℚ
  | a :: b :: l => costAdd (stepW a b) (chainCost (b :: l))
  | _ => (0, 0)

/-- Consecutive cells of a sequence are 8-adjacent. -/
def adjChain : List Cell → Bool
  | a :: b :: l => decide (adjStep a b) && adjChain (b :: l)
  | _ => true

/-- An 8-connected path through the grid from `s` to `t`: consecutive cells
are 8-adjacent and every cell after the first is a free cell (the head is
not required to be free, matching the search, which never validates the
start cell). -/
def IsPath (g : AStarPlanner) (l : List Cell) (s t : Cell) : Prop :=
  l.head? = some s ∧ l.getLast? = some t ∧
    adjChain l = true ∧ ∀ c ∈ l.tail, freeCell g c

instance (g : AStarPlanner) (l : List Cell) (s t : Cell) :
    Decidable (IsPath g l s t) :=
  inferInstanceAs (Decidable (l.head? = some s ∧ l.getLast? = some t ∧
    adjChain l = true ∧ ∀ c ∈ l.tail, freeCell g c))

/-- A path in the free-space graph proper: an `IsPath` whose head cell is
also free. -/
def IsFreePath (g : AStarPlanner) (l : List Cell) (s t : Cell) : Prop :=
  IsPath g l s t ∧ freeCell g s

/-- The grid's rounded widths exactly cover its world bounding box.  This
holds in particular for every grid built at resolution 1 (the program's own
configuration); when it fails, `verify_node`'s world-coordinate bounds
checks disagree with the occupancy map's dimensions and the map access can
raise `IndexError`. -/
def ExactGrid (g : AStarPlanner) : Prop :=
  0 < g.resolution ∧
    (g.x_width : ℚ) * g.resolution = (g.max_x : ℚ) - (g.min_x : ℚ) ∧
    (g.y_width : ℚ) * g.resolution = (g.max_y : ℚ) - (g.min_y : ℚ)

instance (g : AStarPlanner) : Decidable (ExactGrid g) :=
  inferInstanceAs (Decidable (0 < g.resolution ∧
    (g.x_width : ℚ) * g.resolution = (g.max_x : ℚ) - (g.min_x : ℚ) ∧
    (g.y_width : ℚ) * g.resolution = (g.max_y : ℚ) - (g.min_y : ℚ)))

/-- The occupancy map has the dimensions recorded in the planner. -/
def GoodMap (g : AStarPlanner) : Prop :=
  g.obstacle_map.length = g.x_width.toNat ∧
    ∀ row ∈ g.obstacle_map, row.length = g.y_width.toNat

instance (g : AStarPlanner) : Decidable (GoodMap g) :=
  inferInstanceAs (Decidable (g.obstacle_map.length = g.x_width.toNat ∧
    ∀ row ∈ g.obstacle_map, row.length = g.y_width.toNat))

/-- A well-formed grid: exact widths and a consistently sized map. -/
def WFGrid (g : AStarPlanner) : Prop := ExactGrid g ∧ GoodMap g

instance (g : AStarPlanner) : Decidable (WFGrid g) :=
  inferInstanceAs (Decidable (ExactGrid g ∧ GoodMap g))

/-- The grid cell a pair of world coordinates is snapped to. -/
def worldCell (g : AStarPlanner) (wx wy : ℚ) : Cell :=
  (calc_xy_index g wx g.min_x, calc_xy_index g wy g.min_y)

/-- The start node built at the top of `planning`. -/
def startNode (g : AStarPlanner) (sx sy : ℚ) : Node :=
  ⟨calc_xy_index g sx g.min_x, calc_xy_index g sy g.min_y, (0, 0), -1⟩

/-- The goal node built at the top of `planning`. -/
def goalNode (g : AStarPlanner) (gx gy : ℚ) : Node :=
  ⟨calc_xy_index g gx g.min_x, calc_xy_index g gy g.min_y, (0, 0), -1⟩

/-- A state of the search loop: the open and closed dicts. -/
def OCState : Type := List (ℤ × Node) × List (ℤ × Node)

/-- The state `planning` enters its loop with: the open set holds exactly
the start node under its cell identifier, the closed set is empty. -/
def initState (g : AStarPlanner) (sx sy : ℚ) : OCState :=
  ([(calc_grid_index g (startNode g sx sy), startNode g sx sy)], [])

/-- One non-breaking iteration of the `while True` loop of `planning`. -/
def AStep (g : AStarPlanner) (goal : Node) (s s2 : OCState) : Prop :=
  astarIter g goal s.1 s.2 = .ok (.inr (s2.1, s2.2))

/-- States the loop of `planning` can pass through, from a given state. -/
def AReach (g : AStarPlanner) (goal : Node) : OCState → OCState → Prop :=
  Relation.ReflTransGen (AStep g goal)

/-- The keys of a dict, in iteration order. -/
def dictKeys (d : List (ℤ × Node)) : List ℤ := d.map Prod.fst

/-- Open and closed sets have no common key, and neither has a duplicate
key (as Python dicts cannot). -/
def OCInv (s : OCState) : Prop :=
  (s.1.map Prod.fst).Nodup ∧ (s.2.map Prod.fst).Nodup ∧
    ∀ k : ℤ, ¬((dictLookup s.1 k).isSome ∧ (dictLookup s.2 k).isSome)

/-- The cell of a search node. -/
def nodeCell (n : Node) : Cell := (n.x, n.y)

/-- The cell identifier formula of `calc_grid_index`, on cells. -/
def keyOf (g : AStarPlanner) (c : Cell) : ℤ :=
  (c.2 - g.min_y) * g.x_width + (c.1 - g.min_x)

/-- The real heuristic value between the goal node and a cell. -/
noncomputable def cellHeurR (goal : Node) (c : Cell) : ℝ :=
  Real.sqrt ((((goal.x - c.1) ^ 2 + (goal.y - c.2) ^ 2).toNat : ℕ) : ℝ)

/-- The real total step cost of a cell sequence. -/
noncomputable def chainCostR (l : List Cell) : ℝ := costValR (chainCost l)

instance {ε α : Type} [DecidableEq ε] [DecidableEq α] :
    DecidableEq (Except ε α) := fun a b =>
  match a, b with
  | .ok x, .ok y => decidable_of_iff (x = y) (by simp)
  | .error x, .error y => decidable_of_iff (x = y) (by simp)
  | .ok _, .error _ => isFalse (by simp)
  | .error _, .ok _ => isFalse (by simp)

/-! Basic lemmas about the Python-semantics primitives. -/

theorem ratFloor_eq_intFloor (q : ℚ) : Rat.floor q = ⌊q⌋ :=
  (Rat.floor_def' q).trans Rat.floor_def.symm

theorem pyRound_intCast (n : ℤ) : pyRound (n : ℚ) = n := by
  have hf : Rat.floor ((n : ℚ)) = n := by
    rw [ratFloor_eq_intFloor, Int.floor_intCast]
  simp [pyRound, hf]

/-- Characterization of banker rounding: `pyRound q` is the floor when the
fractional part is at most one half, the ceiling when it is at least one
half (both disjuncts hold on a tie). -/
theorem pyRound_spec (q : ℚ) :
    (pyRound q = ⌊q⌋ ∧ q - (⌊q⌋ : ℚ) ≤ 1/2) ∨
      (pyRound q = ⌊q⌋ + 1 ∧ 1/2 ≤ q - (⌊q⌋ : ℚ)) := by
  rw [pyRound, ratFloor_eq_intFloor]
  split_ifs with h1 h2 h3
  · exact .inl ⟨rfl, le_of_lt h1⟩
  · exact .inr ⟨rfl, le_of_lt h2⟩
  · push_neg at h1 h2
    exact .inl ⟨rfl, h2⟩
  · push_neg at h1
    exact .inr ⟨rfl, h1⟩

theorem pyRound_nonpos {q : ℚ} (h : q ≤ 0) : pyRound q ≤ 0 := by
  have hfl : (⌊q⌋ : ℚ) ≤ q := Int.floor_le q
  have hf0 : ⌊q⌋ ≤ 0 := Int.floor_nonpos h
  rcases pyRound_spec q with ⟨e, b⟩ | ⟨e, b⟩
  · omega
  · rw [e]
    by_contra hk
    push_neg at hk
    have h0 : ⌊q⌋ = 0 := by omega
    rw [h0] at b
    push_cast at b
    linarith

theorem pyRound_mono : Monotone pyRound := by
  intro q r hqr
  have hf := Int.floor_mono hqr
  rcases pyRound_spec q with ⟨e1, b1⟩ | ⟨e1, b1⟩ <;>
    rcases pyRound_spec r with ⟨e2, b2⟩ | ⟨e2, b2⟩ <;> rw [e1, e2]
  · exact hf
  · omega
  · rcases lt_or_eq_of_le hf with hlt | heq
    · omega
    · exfalso
      have hcast : (⌊q⌋ : ℚ) = (⌊r⌋ : ℚ) := by exact_mod_cast heq
      have hqr2 : q = r := by linarith
      rw [hqr2] at e1
      omega
  · omega

theorem foldl_min_le_init (l : List ℚ) (q : ℚ) : l.foldl min q ≤ q := by
  induction l generalizing q with
  | nil => exact le_refl q
  | cons a as ih => exact le_trans (ih (min q a)) (min_le_left q a)

theorem init_le_foldl_max (l : List ℚ) (q : ℚ) : q ≤ l.foldl max q := by
  induction l generalizing q with
  | nil => exact le_refl q
  | cons a as ih => exact le_trans (le_max_left q a) (ih (max q a))

theorem pyMin_le_pyMax {l : List ℚ} {a b : ℚ} (ha : pyMin l = .ok a)
    (hb : pyMax l = .ok b) : a ≤ b := by
  cases l with
  | nil => simp [pyMin] at ha
  | cons q qs =>
      simp only [pyMin, pyMax, Except.ok.injEq] at ha hb
      subst ha
      subst hb
      exact le_trans (foldl_min_le_init qs q) (init_le_foldl_max qs q)

/-- C6: for every grid index `i` with `0 ≤ i` below the corresponding axis
width and positive resolution, converting the index to a world position and
back is the identity:
`calc_xy_index (calc_grid_position i min_bound) min_bound = i`. -/
theorem C6_round_trip (g : AStarPlanner) (i : ℤ) (hres : 0 < g.resolution)
    (h0 : 0 ≤ i) (hw : i < g.x_width) :
    calc_xy_index g (calc_grid_position g i g.min_x) g.min_x = i := by
  unfold calc_xy_index calc_grid_position
  have hne : g.resolution ≠ 0 := ne_of_gt hres
  have hq : ((i : ℚ) * g.resolution + (g.min_x : ℚ) - (g.min_x : ℚ)) /
      g.resolution = (i : ℚ) := by
    field_simp
  rw [hq, pyRound_intCast]

/-- Witness for C6 at a concrete grid and index. -/
theorem C6_round_trip_witness :
    calc_xy_index ⟨1, 0, 0, 0, 10, 10, 10, 10, []⟩
      (calc_grid_position ⟨1, 0, 0, 0, 10, 10, 10, 10, []⟩ 3 0) 0 = 3 :=
  C6_round_trip ⟨1, 0, 0, 0, 10, 10, 10, 10, []⟩ 3 (by norm_num) (by norm_num)
    (by norm_num)

/-- C9: planning is deterministic: two calls on the same grid with the same
start and goal world coordinates return waypoint sequences of identical
length and identical total path cost. -/
theorem C9_deterministic (g : AStarPlanner) (sx sy gx gy : ℚ)
    (rx ry rx2 ry2 : List ℚ)
    (h1 : planning g sx sy gx gy = .ok (rx, ry))
    (h2 : planning g sx sy gx gy = .ok (rx2, ry2)) :
    rx.length = rx2.length ∧ ry.length = ry2.length ∧
      pathCostR rx ry = pathCostR rx2 ry2 := by
  rw [h1] at h2
  simp only [Except.ok.injEq, Prod.mk.injEq] at h2
  obtain ⟨rfl, rfl⟩ := h2
  exact ⟨rfl, rfl, rfl⟩

unseal Rat.add Rat.sub Rat.mul Rat.inv in
/-- Witness for C9 at a concrete grid and query. -/
theorem C9_deterministic_witness :
    ([(0 : ℚ)]).length = ([(0 : ℚ)]).length ∧
      ([(0 : ℚ)]).length = ([(0 : ℚ)]).length ∧
      pathCostR [(0 : ℚ)] [(0 : ℚ)] = pathCostR [(0 : ℚ)] [(0 : ℚ)] :=
  C9_deterministic ⟨1, 0, 0, 0, 3, 3, 3, 3,
      [[false, false, false], [false, false, false], [false, false, false]]⟩
    0 0 0 0 [0] [0] [0] [0] (by decide) (by decide)

/-- C8: for every grid, if the start and goal world coordinates map to the
same grid cell, planning terminates on the first loop iteration and returns
the single-point path at that cell, whose total step cost is 0. -/
theorem C8_start_eq_goal (g : AStarPlanner) (sx sy gx gy : ℚ)
    (h : worldCell g sx sy = worldCell g gx gy) :
    planning g sx sy gx gy =
      .ok ([calc_grid_position g (worldCell g gx gy).1 g.min_x],
           [calc_grid_position g (worldCell g gx gy).2 g.min_y]) ∧
    pathCostR [calc_grid_position g (worldCell g gx gy).1 g.min_x]
      [calc_grid_position g (worldCell g gx gy).2 g.min_y] = 0 := by
  have hx : calc_xy_index g sx g.min_x = calc_xy_index g gx g.min_x := by
    have := congrArg Prod.fst h
    simpa [worldCell] using this
  have hy : calc_xy_index g sy g.min_y = calc_xy_index g gy g.min_y := by
    have := congrArg Prod.snd h
    simpa [worldCell] using this
  refine ⟨?_, rfl⟩
  rw [planning, hx, hy,
    show planFuel g = (g.x_width.toNat * g.y_width.toNat + 2) + 1 from rfl]
  simp [aloop, astarIter, argminKey, argminAux, dictLookup, List.find?,
    calc_final_path, cfp_loop, worldCell, Except.instMonad, Except.bind,
    Except.pure, Except.map]

unseal Rat.add Rat.sub Rat.mul Rat.inv in
/-- Witness for C8 at a concrete grid and query. -/
theorem C8_start_eq_goal_witness :
    planning ⟨1, 0, 0, 0, 3, 3, 3, 3,
        [[false, false, false], [false, false, false], [false, false, false]]⟩
        (1/4) (1/4) 0 0 =
      .ok ([calc_grid_position ⟨1, 0, 0, 0, 3, 3, 3, 3,
          [[false, false, false], [false, false, false], [false, false, false]]⟩
            (worldCell ⟨1, 0, 0, 0, 3, 3, 3, 3,
          [[false, false, false], [false, false, false], [false, false, false]]⟩ 0 0).1 0],
        [calc_grid_position ⟨1, 0, 0, 0, 3, 3, 3, 3,
          [[false, false, false], [false, false, false], [false, false, false]]⟩
            (worldCell ⟨1, 0, 0, 0, 3, 3, 3, 3,
          [[false, false, false], [false, false, false], [false, false, false]]⟩ 0 0).2 0]) ∧
    pathCostR [calc_grid_position ⟨1, 0, 0, 0, 3, 3, 3, 3,
        [[false, false, false], [false, false, false], [false, false, false]]⟩
          (worldCell ⟨1, 0, 0, 0, 3, 3, 3, 3,
        [[false, false, false], [false, false, false], [false, false, false]]⟩ 0 0).1 0]
      [calc_grid_position ⟨1, 0, 0, 0, 3, 3, 3, 3,
        [[false, false, false], [false, false, false], [false, false, false]]⟩
          (worldCell ⟨1, 0, 0, 0, 3, 3, 3, 3,
        [[false, false, false], [false, false, false], [false, false, false]]⟩ 0 0).2 0] = 0 :=
  C8_start_eq_goal _ (1/4) (1/4) 0 0 (by decide)


/-- Unfolding of grid construction on nonempty obstacle lists. -/
theorem calc_obstacle_map_cons (a b res rr : ℚ) (as bs : List ℚ) :
    calc_obstacle_map res rr (a :: as) (b :: bs) =
      if res = 0 then .error .zeroDivisionError
      else .ok ⟨res, rr, pyRound (as.foldl min a), pyRound (bs.foldl min b),
        pyRound (as.foldl max a), pyRound (bs.foldl max b),
        pyRound (((pyRound (as.foldl max a) : ℚ) -
          (pyRound (as.foldl min a) : ℚ)) / res),
        pyRound (((pyRound (bs.foldl max b) : ℚ) -
          (pyRound (bs.foldl min b) : ℚ)) / res),
        (List.range (pyRound (((pyRound (as.foldl max a) : ℚ) -
            (pyRound (as.foldl min a) : ℚ)) / res)).toNat).map (fun (ix : ℕ) =>
          (List.range (pyRound (((pyRound (bs.foldl max b) : ℚ) -
              (pyRound (bs.foldl min b) : ℚ)) / res)).toNat).map (fun (iy : ℕ) =>
            obstacleCell ((a :: as).zip (b :: bs)) rr
              ((ix : ℚ) * res + ((pyRound (as.foldl min a) : ℤ) : ℚ))
              ((iy : ℚ) * res + ((pyRound (bs.foldl min b) : ℤ) : ℚ))))⟩ :=
  rfl

/-- Construction fails with `ValueError` when the x obstacle list is empty. -/
theorem calc_obstacle_map_nil_x (oy : List ℚ) (res rr : ℚ) :
    calc_obstacle_map res rr [] oy = .error .valueError := rfl

/-- Construction fails with `ValueError` when the y obstacle list is empty. -/
theorem calc_obstacle_map_nil_y (a : ℚ) (as : List ℚ) (res rr : ℚ) :
    calc_obstacle_map res rr (a :: as) [] = .error .valueError := rfl

/-- Inversion of a successful grid construction: the resulting planner
fields and the shape of the occupancy map. -/
theorem calc_obstacle_map_fields {res rr : ℚ} {ox oy : List ℚ}
    {g : AStarPlanner} (h : calc_obstacle_map res rr ox oy = .ok g) :
    g.resolution = res ∧ g.rr = rr ∧ res ≠ 0 ∧
    g.obstacle_map =
      (List.range g.x_width.toNat).map (fun (ix : ℕ) =>
        (List.range g.y_width.toNat).map (fun (iy : ℕ) =>
          obstacleCell (ox.zip oy) rr ((ix : ℚ) * res + ((g.min_x : ℤ) : ℚ))
            ((iy : ℚ) * res + ((g.min_y : ℤ) : ℚ)))) := by
  cases ox with
  | nil => rw [calc_obstacle_map_nil_x] at h; exact absurd h (by simp)
  | cons a as =>
    cases oy with
    | nil => rw [calc_obstacle_map_nil_y] at h; exact absurd h (by simp)
    | cons b bs =>
        rw [calc_obstacle_map_cons] at h
        by_cases hres : res = 0
        · rw [if_pos hres] at h
          exact absurd h (by simp)
        · rw [if_neg hres] at h
          simp only [Except.ok.injEq] at h
          subst h
          exact ⟨rfl, rfl, hres, rfl⟩

unseal Rat.add Rat.sub Rat.mul Rat.inv in
/-- C4 counterexample: a negative resolution is accepted by grid
construction, which silently produces a degenerate planner with an empty
occupancy map instead of signalling an error. -/
theorem C4_counterexample :
    calc_obstacle_map (-1) 1 [0, 10] [0, 10] =
      .ok ⟨-1, 1, 0, 0, 10, 10, -10, -10, []⟩ := by
  decide

/-- C4 amended: construction rejects an empty obstacle point set
(`ValueError` from `min`) and a zero resolution (`ZeroDivisionError` at the
width division), both synchronously before any search runs; but a negative
resolution is not rejected: construction succeeds and silently returns a
degenerate grid whose occupancy map is empty. -/
theorem C4_amended :
    (∀ (oy : List ℚ) (res rr : ℚ),
      calc_obstacle_map res rr [] oy = .error .valueError) ∧
    (∀ (ox oy : List ℚ) (rr : ℚ), ox ≠ [] → oy ≠ [] →
      calc_obstacle_map 0 rr ox oy = .error .zeroDivisionError) ∧
    (∀ (ox oy : List ℚ) (res rr : ℚ), res < 0 → ox ≠ [] → oy ≠ [] →
      ∃ g, calc_obstacle_map res rr ox oy = .ok g ∧ g.obstacle_map = []) := by
  refine ⟨fun oy res rr => rfl, ?_, ?_⟩
  · intro ox oy rr hox hoy
    obtain ⟨a, as, rfl⟩ : ∃ a as, ox = a :: as := by
      cases ox with
      | nil => exact absurd rfl hox
      | cons a as => exact ⟨a, as, rfl⟩
    obtain ⟨b, bs, rfl⟩ : ∃ b bs, oy = b :: bs := by
      cases oy with
      | nil => exact absurd rfl hoy
      | cons b bs => exact ⟨b, bs, rfl⟩
    rw [calc_obstacle_map_cons, if_pos rfl]
  · intro ox oy res rr hres hox hoy
    obtain ⟨a, as, rfl⟩ : ∃ a as, ox = a :: as := by
      cases ox with
      | nil => exact absurd rfl hox
      | cons a as => exact ⟨a, as, rfl⟩
    obtain ⟨b, bs, rfl⟩ : ∃ b bs, oy = b :: bs := by
      cases oy with
      | nil => exact absurd rfl hoy
      | cons b bs => exact ⟨b, bs, rfl⟩
    have hres0 : res ≠ 0 := ne_of_lt hres
    have hminmaxx : pyRound (as.foldl min a) ≤ pyRound (as.foldl max a) :=
      pyRound_mono (le_trans (foldl_min_le_init as a) (init_le_foldl_max as a))
    have hwx : pyRound (((pyRound (as.foldl max a) : ℚ) -
        (pyRound (as.foldl min a) : ℚ)) / res) ≤ 0 := by
      apply pyRound_nonpos
      apply div_nonpos_of_nonneg_of_nonpos
      · have hc : ((pyRound (as.foldl min a) : ℤ) : ℚ) ≤
            ((pyRound (as.foldl max a) : ℤ) : ℚ) := by exact_mod_cast hminmaxx
        linarith
      · exact le_of_lt hres
    refine ⟨_, by rw [calc_obstacle_map_cons, if_neg hres0], ?_⟩
    simp only []
    rw [Int.toNat_of_nonpos hwx]
    simp

unseal Rat.add Rat.sub Rat.mul Rat.inv in
/-- C10: failing input for the no-crash claim.  On the grid built from
obstacle points `(0,0)`, `(10,10)` with resolution 3, the world-coordinate
bounds checks of `verify_node` accept the phantom column `x = 3` (since
`3 * 3 = 9 < 10 = max_x`) although the occupancy map has only 3 rows, so
the map access raises `IndexError` during the very first expansion. -/
theorem C10_crash :
    (calc_obstacle_map 3 0 [0, 10] [0, 10]).bind (fun g => planning g 6 3 0 0) =
      .error .indexError := by
  decide

unseal Rat.add Rat.sub Rat.mul Rat.inv in
/-- C5: on the 10-by-10 obstacle-free grid with resolution 1 and clearance
radius 0, planning from `(0,0)` to `(9,9)` returns the pure diagonal: 10
waypoints with total step cost `9·√2`. -/
theorem C5_diagonal :
    (calc_obstacle_map 1 0 [0, 10] [10, 0]).bind (fun g => planning g 0 0 9 9) =
      .ok ([9, 8, 7, 6, 5, 4, 3, 2, 1, 0], [9, 8, 7, 6, 5, 4, 3, 2, 1, 0]) ∧
    ([(9 : ℚ), 8, 7, 6, 5, 4, 3, 2, 1, 0]).length = 10 ∧
    pathCostR [9, 8, 7, 6, 5, 4, 3, 2, 1, 0] [9, 8, 7, 6, 5, 4, 3, 2, 1, 0] =
      9 * Real.sqrt 2 := by
  refine ⟨by decide, by decide, ?_⟩
  norm_num [pathCostR]
  ring

unseal Rat.add Rat.sub Rat.mul Rat.inv in
/-- C2 counterexample: the "no path" outcome is neither an empty nor a
distinguishable sentinel result.  On the free 10-by-10 grid, planning from
the far out-of-bounds start `(50,50)` (disconnected from the goal) returns
the one-point path `([0],[0])` at the goal cell, which is exactly the
output of the successful start-equals-goal query; and on a grid whose cell
`(2,2)` is blocked (hence outside the free-space graph), planning from a
start on that blocked cell returns a two-point "successful" path rather
than any no-path result. -/
theorem C2_counterexample :
    ∃ g gB,
      calc_obstacle_map 1 0 [0, 10] [10, 0] = .ok g ∧
      planning g 50 50 0 0 = .ok ([0], [0]) ∧
      planning g 0 0 0 0 = .ok ([0], [0]) ∧
      worldCell g 50 50 = (50, 50) ∧ g.x_width = 10 ∧ g.y_width = 10 ∧
      calc_obstacle_map 1 0 [0, 10, 2] [10, 0, 2] = .ok gB ∧
      ¬freeCell gB (2, 2) ∧ worldCell gB 2 2 = (2, 2) ∧
      planning gB 2 2 2 3 = .ok ([2, 2], [3, 2]) := by
  refine ⟨⟨1, 0, 0, 0, 10, 10, 10, 10,
      List.replicate 10 (List.replicate 10 false)⟩,
    ⟨1, 0, 0, 0, 10, 10, 10, 10,
      [List.replicate 10 false, List.replicate 10 false,
       [false, false, true, false, false, false, false, false, false, false],
       List.replicate 10 false, List.replicate 10 false,
       List.replicate 10 false, List.replicate 10 false,
       List.replicate 10 false, List.replicate 10 false,
       List.replicate 10 false]⟩,
    ?_, ?_, ?_, ?_, ?_, ?_, ?_, ?_, ?_, ?_⟩ <;> decide

unseal Rat.add Rat.sub Rat.mul Rat.inv in
/-- C1 counterexample, two failure modes.  First, a grid and a start/goal
pair connected in the 8-connected free-space graph on which planning raises
`IndexError` instead of returning a minimal-cost path (resolution 3
under-rounds the width, so `verify_node` accepts the phantom column `x = 3`
and the map access overflows during the first expansion).  Second, an
obstacle-free grid whose world origin is nonzero, on which the in-grid free
cell `(3, 0)` has cell identifier `-1`; following parent links,
`calc_final_path` mistakes that identifier for the start sentinel and
returns a truncated waypoint list that never reaches the start cell's
world position `4` at all, although a free path from start to goal
exists. -/
theorem C1_counterexample :
    (∃ g, calc_obstacle_map 3 0 [0, 10] [0, 10] = .ok g ∧
      freeCell g (2, 1) ∧ freeCell g (1, 1) ∧
      worldCell g 6 3 = (2, 1) ∧ worldCell g 3 3 = (1, 1) ∧
      IsPath g [(2, 1), (1, 1)] (2, 1) (1, 1) ∧
      planning g 6 3 3 3 = .error .indexError) ∧
    (∃ g2, calc_obstacle_map 1 0 [9 / 2, 29 / 2] [1 / 2, 21 / 2] = .ok g2 ∧
      freeCell g2 (0, 0) ∧ freeCell g2 (8, 0) ∧
      worldCell g2 4 0 = (0, 0) ∧ worldCell g2 12 0 = (8, 0) ∧
      IsPath g2 [(0, 0), (1, 0), (2, 0), (3, 0), (4, 0), (5, 0), (6, 0),
        (7, 0), (8, 0)] (0, 0) (8, 0) ∧
      freeCell g2 (3, 0) ∧ keyOf g2 (3, 0) = -1 ∧
      planning g2 4 0 12 0 = .ok ([12, 11, 10, 9, 8], [0, 0, 0, 0, 0]) ∧
      calc_grid_position g2 0 g2.min_x = 4 ∧
      ∀ x ∈ ([12, 11, 10, 9, 8] : List ℚ), x ≠ 4) := by
  constructor
  · refine ⟨⟨3, 0, 0, 0, 10, 10, 3, 3,
      [[true, false, false], [false, false, false], [false, false, false]]⟩,
      ?_, ?_, ?_, ?_, ?_, ?_, ?_⟩ <;> decide
  · refine ⟨⟨1, 0, 4, 0, 14, 10, 10, 10,
      List.replicate 10 (List.replicate 10 false)⟩,
      ?_, ?_, ?_, ?_, ?_, ?_, ?_, ?_, ?_, ?_, ?_⟩ <;> decide

unseal Rat.add Rat.sub Rat.mul Rat.inv in
/-- Witness for the amended C4 at concrete inputs. -/
theorem C4_amended_witness :
    calc_obstacle_map 1 1 [] [] = .error .valueError ∧
    calc_obstacle_map 0 1 [5] [5] = .error .zeroDivisionError ∧
    ∃ g, calc_obstacle_map (-2) 1 [5] [5] = .ok g ∧ g.obstacle_map = [] :=
  ⟨C4_amended.1 [] 1 1,
   C4_amended.2.1 [5] [5] 1 (by decide) (by decide),
   C4_amended.2.2 [5] [5] (-2) 1 (by norm_num) (by decide) (by decide)⟩

/-- C3: for every successfully constructed occupancy grid with positive
resolution and non-negative clearance radius, a cell `(ix, iy)` is marked
blocked iff some obstacle point lies at Euclidean distance at most the
clearance radius (inclusive) from the cell's world-space center
`(ix * resolution + min_x, iy * resolution + min_y)`. -/
theorem C3_blocked_iff (ox oy : List ℚ) (res rr : ℚ) (g : AStarPlanner)
    (hg : calc_obstacle_map res rr ox oy = .ok g) (hres : 0 < res)
    (hrr : 0 ≤ rr) (ix iy : ℕ)
    (hx : ix < g.x_width.toNat) (hy : iy < g.y_width.toNat) :
    (g.obstacle_map.getD ix []).getD iy false = true ↔
      ∃ p ∈ ox.zip oy,
        Real.sqrt (((p.1 : ℝ) - ((ix : ℝ) * (res : ℝ) + (g.min_x : ℝ))) ^ 2 +
            ((p.2 : ℝ) - ((iy : ℝ) * (res : ℝ) + (g.min_y : ℝ))) ^ 2) ≤
          (rr : ℝ) := by
  obtain ⟨hgres, hgrr, hne, hmap⟩ := calc_obstacle_map_fields hg
  have hrow : g.obstacle_map.getD ix [] =
      (List.range g.y_width.toNat).map (fun (iy : ℕ) =>
        obstacleCell (ox.zip oy) rr ((ix : ℚ) * res + ((g.min_x : ℤ) : ℚ))
          ((iy : ℚ) * res + ((g.min_y : ℤ) : ℚ))) := by
    rw [hmap, List.getD, List.get?_eq_getElem?, List.getElem?_map,
      List.getElem?_range hx]
    rfl
  have hcell : (g.obstacle_map.getD ix []).getD iy false =
      obstacleCell (ox.zip oy) rr ((ix : ℚ) * res + ((g.min_x : ℤ) : ℚ))
        ((iy : ℚ) * res + ((g.min_y : ℤ) : ℚ)) := by
    rw [hrow, List.getD, List.get?_eq_getElem?, List.getElem?_map,
      List.getElem?_range hy]
    rfl
  rw [hcell, obstacleCell, List.any_eq_true]
  constructor
  · rintro ⟨p, hp, hcond⟩
    rw [Bool.and_eq_true, decide_eq_true_eq, decide_eq_true_eq] at hcond
    refine ⟨p, hp, ?_⟩
    rw [Real.sqrt_le_iff]
    constructor
    · exact_mod_cast hrr
    · have h2 := hcond.2
      have : ((p.1 - ((ix : ℤ) * res + (g.min_x : ℤ))) ^ 2 +
          (p.2 - ((iy : ℤ) * res + (g.min_y : ℤ))) ^ 2 : ℚ) ≤ rr ^ 2 := by
        exact_mod_cast h2
      calc ((p.1 : ℝ) - ((ix : ℝ) * (res : ℝ) + (g.min_x : ℝ))) ^ 2 +
            ((p.2 : ℝ) - ((iy : ℝ) * (res : ℝ) + (g.min_y : ℝ))) ^ 2
          = (((p.1 - ((ix : ℤ) * res + (g.min_x : ℤ))) ^ 2 +
              (p.2 - ((iy : ℤ) * res + (g.min_y : ℤ))) ^ 2 : ℚ) : ℝ) := by
            push_cast
            ring
        _ ≤ ((rr ^ 2 : ℚ) : ℝ) := by exact_mod_cast this
        _ = (rr : ℝ) ^ 2 := by push_cast; ring
  · rintro ⟨p, hp, hdist⟩
    refine ⟨p, hp, ?_⟩
    rw [Bool.and_eq_true, decide_eq_true_eq, decide_eq_true_eq]
    refine ⟨hrr, ?_⟩
    rw [Real.sqrt_le_iff] at hdist
    have h2 := hdist.2
    have hq : (((p.1 - ((ix : ℤ) * res + (g.min_x : ℤ))) ^ 2 +
        (p.2 - ((iy : ℤ) * res + (g.min_y : ℤ))) ^ 2 : ℚ) : ℝ) ≤
        ((rr ^ 2 : ℚ) : ℝ) := by
      calc (((p.1 - ((ix : ℤ) * res + (g.min_x : ℤ))) ^ 2 +
            (p.2 - ((iy : ℤ) * res + (g.min_y : ℤ))) ^ 2 : ℚ) : ℝ)
          = ((p.1 : ℝ) - ((ix : ℝ) * (res : ℝ) + (g.min_x : ℝ))) ^ 2 +
            ((p.2 : ℝ) - ((iy : ℝ) * (res : ℝ) + (g.min_y : ℝ))) ^ 2 := by
            push_cast
            ring
        _ ≤ (rr : ℝ) ^ 2 := h2
        _ = ((rr ^ 2 : ℚ) : ℝ) := by push_cast; ring
    exact_mod_cast hq

unseal Rat.add Rat.sub Rat.mul Rat.inv in
/-- Witness for C3: the constructed grid of the counterexample scenarios
applied at a blocked and checked cell. -/
theorem C3_blocked_iff_witness :
    ∃ g, calc_obstacle_map 1 0 [0, 10, 2] [10, 0, 2] = .ok g ∧
      ((g.obstacle_map.getD 2 []).getD 2 false = true ↔
        ∃ p ∈ ([(0 : ℚ), 10, 2].zip [(10 : ℚ), 0, 2]),
          Real.sqrt (((p.1 : ℝ) - ((2 : ℝ) * ((1 : ℚ) : ℝ) + (g.min_x : ℝ))) ^ 2 +
              ((p.2 : ℝ) - ((2 : ℝ) * ((1 : ℚ) : ℝ) + (g.min_y : ℝ))) ^ 2) ≤
            (((0 : ℚ)) : ℝ)) :=
  ⟨⟨1, 0, 0, 0, 10, 10, 10, 10,
      [List.replicate 10 false, List.replicate 10 false,
       [false, false, true, false, false, false, false, false, false, false],
       List.replicate 10 false, List.replicate 10 false,
       List.replicate 10 false, List.replicate 10 false,
       List.replicate 10 false, List.replicate 10 false,
       List.replicate 10 false]⟩,
    by decide,
    C3_blocked_iff [0, 10, 2] [10, 0, 2] 1 0 _ (by decide) (by norm_num)
      (by norm_num) 2 2 (by decide) (by decide)⟩

/-! Lemmas about the Python-dict model. -/

theorem dictLookup_nil {k : ℤ} : dictLookup ([] : List (ℤ × Node)) k = none := rfl

theorem dictLookup_cons {j : ℤ} {v : Node} {d : List (ℤ × Node)} {k : ℤ} :
    dictLookup ((j, v) :: d) k = if j = k then some v else dictLookup d k := by
  by_cases h : j = k
  · simp [dictLookup, List.find?_cons_of_pos, h]
  · simp only [dictLookup, if_neg h]
    rw [List.find?_cons_of_neg]
    simp [h]

theorem dictLookup_isSome_iff {d : List (ℤ × Node)} {k : ℤ} :
    (dictLookup d k).isSome ↔ k ∈ d.map Prod.fst := by
  induction d with
  | nil => simp [dictLookup_nil]
  | cons e es ih =>
      obtain ⟨j, v⟩ := e
      rw [dictLookup_cons]
      by_cases h : j = k
      · simp [h]
      · simp [h, ih, Ne.symm h]

theorem dictLookup_mem {d : List (ℤ × Node)} {k : ℤ} {v : Node}
    (h : dictLookup d k = some v) : (k, v) ∈ d := by
  induction d with
  | nil => simp [dictLookup_nil] at h
  | cons e es ih =>
      obtain ⟨j, w⟩ := e
      rw [dictLookup_cons] at h
      by_cases hj : j = k
      · rw [if_pos hj] at h
        obtain rfl := hj
        simp only [Option.some.injEq] at h
        subst h
        exact List.mem_cons_self _ _
      · rw [if_neg hj] at h
        exact List.mem_cons_of_mem _ (ih h)

theorem dictLookup_dictSet_self {d : List (ℤ × Node)} {k : ℤ} {v : Node} :
    dictLookup (dictSet d k v) k = some v := by
  induction d with
  | nil => simp [dictSet, dictLookup_cons]
  | cons e es ih =>
      obtain ⟨j, w⟩ := e
      by_cases h : j = k
      · simp [dictSet, h, dictLookup_cons]
      · simp only [dictSet, if_neg h]
        rw [dictLookup_cons, if_neg h]
        exact ih

theorem dictLookup_dictSet_ne {d : List (ℤ × Node)} {k j : ℤ} {v : Node}
    (h : j ≠ k) : dictLookup (dictSet d k v) j = dictLookup d j := by
  induction d with
  | nil => simp [dictSet, dictLookup_cons, dictLookup_nil, Ne.symm h]
  | cons e es ih =>
      obtain ⟨i, w⟩ := e
      by_cases hik : i = k
      · subst hik
        rw [show dictSet ((i, w) :: es) i v = (i, v) :: es from by
          simp [dictSet]]
        rw [dictLookup_cons, dictLookup_cons]
        rw [if_neg (fun hh => h hh.symm), if_neg (fun hh => h hh.symm)]
      · simp only [dictSet, if_neg hik]
        rw [dictLookup_cons, dictLookup_cons]
        by_cases hij : i = j
        · simp [hij]
        · rw [if_neg hij, if_neg hij]
          exact ih

theorem keys_dictSet_mem {d : List (ℤ × Node)} {k : ℤ} {v : Node}
    (h : k ∈ d.map Prod.fst) :
    (dictSet d k v).map Prod.fst = d.map Prod.fst := by
  induction d with
  | nil => simp at h
  | cons e es ih =>
      obtain ⟨j, w⟩ := e
      by_cases hj : j = k
      · simp [dictSet, hj]
      · simp only [List.map_cons, List.mem_cons] at h
        rcases h with h | h
        · exact absurd h.symm hj
        · simp [dictSet, hj, ih h]

theorem keys_dictSet_not_mem {d : List (ℤ × Node)} {k : ℤ} {v : Node}
    (h : k ∉ d.map Prod.fst) :
    (dictSet d k v).map Prod.fst = d.map Prod.fst ++ [k] := by
  induction d with
  | nil => simp [dictSet]
  | cons e es ih =>
      obtain ⟨j, w⟩ := e
      simp only [List.map_cons, List.mem_cons] at h
      push_neg at h
      simp [dictSet, Ne.symm h.1, ih h.2]

theorem nodup_keys_dictSet {d : List (ℤ × Node)} {k : ℤ} {v : Node}
    (h : (d.map Prod.fst).Nodup) :
    ((dictSet d k v).map Prod.fst).Nodup := by
  by_cases hk : k ∈ d.map Prod.fst
  · rw [keys_dictSet_mem hk]
    exact h
  · rw [keys_dictSet_not_mem hk]
    simp [List.nodup_append, h, hk]

theorem dictDel_sublist (d : List (ℤ × Node)) (k : ℤ) :
    (dictDel d k).Sublist d := by
  induction d with
  | nil => simp [dictDel]
  | cons e es ih =>
      by_cases h : e.1 = k
      · simp only [dictDel, if_pos h]
        exact List.sublist_cons_self e es
      · simp only [dictDel, if_neg h]
        exact List.Sublist.cons₂ e ih

theorem nodup_keys_dictDel {d : List (ℤ × Node)} {k : ℤ}
    (h : (d.map Prod.fst).Nodup) : ((dictDel d k).map Prod.fst).Nodup :=
  ((dictDel_sublist d k).map Prod.fst).nodup h

theorem dictLookup_dictDel_self {d : List (ℤ × Node)} {k : ℤ}
    (h : (d.map Prod.fst).Nodup) : dictLookup (dictDel d k) k = none := by
  induction d with
  | nil => simp [dictDel, dictLookup_nil]
  | cons e es ih =>
      obtain ⟨j, w⟩ := e
      simp only [List.map_cons, List.nodup_cons] at h
      by_cases hj : j = k
      · simp only [dictDel, if_pos hj]
        subst hj
        rw [← Option.not_isSome_iff_eq_none, dictLookup_isSome_iff]
        exact h.1
      · simp only [dictDel, if_neg hj]
        rw [dictLookup_cons, if_neg hj]
        exact ih h.2

theorem dictLookup_dictDel_ne {d : List (ℤ × Node)} {k j : ℤ} (h : j ≠ k) :
    dictLookup (dictDel d k) j = dictLookup d j := by
  induction d with
  | nil => simp [dictDel]
  | cons e es ih =>
      obtain ⟨i, w⟩ := e
      by_cases hik : i = k
      · simp only [dictDel, if_pos hik]
        subst hik
        rw [dictLookup_cons, if_neg]
        intro hh
        exact h hh.symm
      · simp only [dictDel, if_neg hik]
        rw [dictLookup_cons, dictLookup_cons]
        by_cases hij : i = j
        · simp [hij]
        · rw [if_neg hij, if_neg hij]
          exact ih

/-- Unfolding of one step of the neighbour-expansion loop. -/
theorem expand_cons (g : AStarPlanner) (current : Node) (c_id : ℤ)
    (closed openl : List (ℤ × Node)) (m : ℤ × ℤ × (ℚ × ℚ))
    (ms : List (ℤ × ℤ × (ℚ × ℚ))) :
    expand g current c_id closed openl (m :: ms) =
      (verify_node g ⟨current.x + m.1, current.y + m.2.1,
          costAdd current.cost m.2.2, c_id⟩) >>= (fun ok =>
        if !ok then expand g current c_id closed openl ms
        else if (dictLookup closed (calc_grid_index g
            ⟨current.x + m.1, current.y + m.2.1,
              costAdd current.cost m.2.2, c_id⟩)).isSome then
          expand g current c_id closed openl ms
        else
          match dictLookup openl (calc_grid_index g
              ⟨current.x + m.1, current.y + m.2.1,
                costAdd current.cost m.2.2, c_id⟩) with
          | none => expand g current c_id closed
              (dictSet openl (calc_grid_index g
                ⟨current.x + m.1, current.y + m.2.1,
                  costAdd current.cost m.2.2, c_id⟩)
                ⟨current.x + m.1, current.y + m.2.1,
                  costAdd current.cost m.2.2, c_id⟩) ms
          | some old =>
              if costGt old.cost (costAdd current.cost m.2.2) then
                expand g current c_id closed
                  (dictSet openl (calc_grid_index g
                    ⟨current.x + m.1, current.y + m.2.1,
                      costAdd current.cost m.2.2, c_id⟩)
                    ⟨current.x + m.1, current.y + m.2.1,
                      costAdd current.cost m.2.2, c_id⟩) ms
              else expand g current c_id closed openl ms) :=
  rfl

/-- Keys present in the open dict after expansion were already present
before, or are not in the closed dict. -/
theorem expand_lookup_isSome {g : AStarPlanner} {current : Node} {c_id : ℤ}
    {closed : List (ℤ × Node)} :
    ∀ {ms : List (ℤ × ℤ × (ℚ × ℚ))} {openl openl2 : List (ℤ × Node)},
    expand g current c_id closed openl ms = .ok openl2 →
    ∀ k, (dictLookup openl2 k).isSome →
      (dictLookup openl k).isSome ∨ dictLookup closed k = none := by
  intro ms
  induction ms with
  | nil =>
      intro openl openl2 h k hk
      simp only [expand, Except.ok.injEq] at h
      subst h
      exact .inl hk
  | cons m ms ih =>
      intro openl openl2 h k hk
      rw [expand_cons] at h
      cases hv : verify_node g ⟨current.x + m.1, current.y + m.2.1,
          costAdd current.cost m.2.2, c_id⟩ with
      | error e => rw [hv] at h; exact absurd h (by simp [Except.instMonad, Bind.bind, Except.bind])
      | ok b =>
          rw [hv] at h
          simp only [Except.instMonad, Bind.bind, Except.bind] at h
          by_cases hb : b
          · subst hb
            simp only [Bool.not_true, if_false] at h
            by_cases hc : (dictLookup closed (calc_grid_index g
                ⟨current.x + m.1, current.y + m.2.1,
                  costAdd current.cost m.2.2, c_id⟩)).isSome
            · rw [if_pos hc] at h
              exact ih h k hk
            · rw [if_neg hc] at h
              cases ho : dictLookup openl (calc_grid_index g
                  ⟨current.x + m.1, current.y + m.2.1,
                    costAdd current.cost m.2.2, c_id⟩) with
              | none =>
                  simp only [ho] at h
                  rcases ih h k hk with hin | hcl
                  · by_cases hkk : k = calc_grid_index g
                        ⟨current.x + m.1, current.y + m.2.1,
                          costAdd current.cost m.2.2, c_id⟩
                    · subst hkk
                      right
                      rw [← Option.not_isSome_iff_eq_none]
                      exact hc
                    · rw [dictLookup_dictSet_ne hkk] at hin
                      exact .inl hin
                  · exact .inr hcl
              | some old =>
                  simp only [ho] at h
                  by_cases hgt : costGt old.cost (costAdd current.cost m.2.2)
                  · rw [if_pos hgt] at h
                    rcases ih h k hk with hin | hcl
                    · by_cases hkk : k = calc_grid_index g
                          ⟨current.x + m.1, current.y + m.2.1,
                            costAdd current.cost m.2.2, c_id⟩
                      · subst hkk
                        right
                        rw [← Option.not_isSome_iff_eq_none]
                        exact hc
                      · rw [dictLookup_dictSet_ne hkk] at hin
                        exact .inl hin
                    · exact .inr hcl
                  · rw [if_neg hgt] at h
                    exact ih h k hk
          · have hb2 : b = false := by
              cases b
              · rfl
              · exact absurd rfl hb
            subst hb2
            simp only [Bool.not_false, if_true] at h
            exact ih h k hk

/-- Expansion preserves the no-duplicate-keys property of the open dict. -/
theorem expand_nodup {g : AStarPlanner} {current : Node} {c_id : ℤ}
    {closed : List (ℤ × Node)} :
    ∀ {ms : List (ℤ × ℤ × (ℚ × ℚ))} {openl openl2 : List (ℤ × Node)},
    expand g current c_id closed openl ms = .ok openl2 →
    (openl.map Prod.fst).Nodup → (openl2.map Prod.fst).Nodup := by
  intro ms
  induction ms with
  | nil =>
      intro openl openl2 h hnd
      simp only [expand, Except.ok.injEq] at h
      subst h
      exact hnd
  | cons m ms ih =>
      intro openl openl2 h hnd
      rw [expand_cons] at h
      cases hv : verify_node g ⟨current.x + m.1, current.y + m.2.1,
          costAdd current.cost m.2.2, c_id⟩ with
      | error e => rw [hv] at h; exact absurd h (by simp [Except.instMonad, Bind.bind, Except.bind])
      | ok b =>
          rw [hv] at h
          simp only [Except.instMonad, Bind.bind, Except.bind] at h
          by_cases hb : b
          · subst hb
            simp only [Bool.not_true, if_false] at h
            by_cases hc : (dictLookup closed (calc_grid_index g
                ⟨current.x + m.1, current.y + m.2.1,
                  costAdd current.cost m.2.2, c_id⟩)).isSome
            · rw [if_pos hc] at h
              exact ih h hnd
            · rw [if_neg hc] at h
              cases ho : dictLookup openl (calc_grid_index g
                  ⟨current.x + m.1, current.y + m.2.1,
                    costAdd current.cost m.2.2, c_id⟩) with
              | none =>
                  simp only [ho] at h
                  exact ih h (nodup_keys_dictSet hnd)
              | some old =>
                  simp only [ho] at h
                  by_cases hgt : costGt old.cost (costAdd current.cost m.2.2)
                  · rw [if_pos hgt] at h
                    exact ih h (nodup_keys_dictSet hnd)
                  · rw [if_neg hgt] at h
                    exact ih h hnd
          · have hb2 : b = false := by
              cases b
              · rfl
              · exact absurd rfl hb
            subst hb2
            simp only [Bool.not_false, if_true] at h
            exact ih h hnd

/-- Inversion of a continuing loop iteration: the popped node exists, is
not the goal, is moved from open to closed, and the open set is the result
of expanding it. -/
theorem astarIter_inr {g : AStarPlanner} {goal : Node}
    {openl closed : List (ℤ × Node)} {s2 : OCState}
    (h : astarIter g goal openl closed = .ok (.inr (s2.1, s2.2))) :
    ∃ current, openl ≠ [] ∧
      dictLookup openl (argminKey goal openl) = some current ∧
      ¬(current.x = goal.x ∧ current.y = goal.y) ∧
      s2.2 = dictSet closed (argminKey goal openl) current ∧
      expand g current (argminKey goal openl)
        (dictSet closed (argminKey goal openl) current)
        (dictDel openl (argminKey goal openl)) get_motion_model = .ok s2.1 := by
  by_cases hop : openl = []
  · subst hop
    simp [astarIter] at h
  · rw [astarIter, if_neg hop] at h
    cases hlk : dictLookup openl (argminKey goal openl) with
    | none =>
        simp only [hlk] at h
        exact absurd h (by simp)
    | some current =>
        simp only [hlk] at h
        by_cases hgoal : current.x = goal.x ∧ current.y = goal.y
        · rw [if_pos hgoal] at h
          simp at h
        · rw [if_neg hgoal] at h
          simp only [Except.instMonad, Bind.bind, Except.bind] at h
          cases hexp : expand g current (argminKey goal openl)
              (dictSet closed (argminKey goal openl) current)
              (dictDel openl (argminKey goal openl)) get_motion_model with
          | error e => rw [hexp] at h; simp [pure, Except.pure] at h
          | ok l =>
              rw [hexp] at h
              simp only [pure, Except.pure, Except.ok.injEq, Sum.inr.injEq,
                Prod.mk.injEq] at h
              exact ⟨current, hop, rfl, hgoal, h.2.symm, h.1 ▸ hexp⟩

/-- One continuing iteration preserves the open/closed invariant, and the
closed set only grows. -/
theorem astep_inv {g : AStarPlanner} {goal : Node} {s s2 : OCState}
    (hstep : AStep g goal s s2) (hinv : OCInv s) :
    OCInv s2 ∧ ∀ k, (dictLookup s.2 k).isSome → (dictLookup s2.2 k).isSome := by
  obtain ⟨hnd1, hnd2, hdisj⟩ := hinv
  obtain ⟨current, hop, hlk, hgoal, hcl, hexp⟩ := astarIter_inr hstep
  set c_id := argminKey goal s.1 with hcid
  have hcopen : (dictLookup s.1 c_id).isSome := by rw [hlk]; rfl
  have hcclosed : dictLookup s.2 c_id = none := by
    rw [← Option.not_isSome_iff_eq_none]
    intro hs
    exact hdisj c_id ⟨hcopen, hs⟩
  have hcnotmem : c_id ∉ s.2.map Prod.fst := by
    rw [← dictLookup_isSome_iff, hcclosed]
    simp
  have hnd2' : (s2.2.map Prod.fst).Nodup := by
    rw [hcl, keys_dictSet_not_mem hcnotmem]
    simp [List.nodup_append, hnd2, hcnotmem]
  have hnd1' : (s2.1.map Prod.fst).Nodup :=
    expand_nodup hexp (nodup_keys_dictDel hnd1)
  have hmono : ∀ k, (dictLookup s.2 k).isSome → (dictLookup s2.2 k).isSome := by
    intro k hk
    rw [hcl]
    by_cases hkk : k = c_id
    · subst hkk
      rw [dictLookup_dictSet_self]
      rfl
    · rw [dictLookup_dictSet_ne hkk]
      exact hk
  refine ⟨⟨hnd1', hnd2', ?_⟩, hmono⟩
  intro k ⟨hko, hkc⟩
  rcases expand_lookup_isSome hexp k hko with hin | hnone
  · by_cases hkk : k = c_id
    · subst hkk
      rw [dictLookup_dictDel_self hnd1] at hin
      simp at hin
    · rw [dictLookup_dictDel_ne hkk] at hin
      rw [hcl, dictLookup_dictSet_ne hkk] at hkc
      exact hdisj k ⟨hin, hkc⟩
  · rw [hcl] at hkc
    rw [hnone] at hkc
    simp at hkc

/-- The invariant holds along every loop execution, and the closed set is
monotone along it. -/
theorem areach_inv {g : AStarPlanner} {goal : Node} {s s2 : OCState}
    (h : AReach g goal s s2) (hinv : OCInv s) :
    OCInv s2 ∧ ∀ k, (dictLookup s.2 k).isSome → (dictLookup s2.2 k).isSome := by
  induction h with
  | refl => exact ⟨hinv, fun k hk => hk⟩
  | tail hab hbc ih =>
      obtain ⟨hinvb, hmono⟩ := ih
      obtain ⟨hinvc, hmono2⟩ := astep_inv hbc hinvb
      exact ⟨hinvc, fun k hk => hmono2 k (hmono k hk)⟩

/-- The state `planning` starts its loop with satisfies the invariant. -/
theorem initState_inv (g : AStarPlanner) (sx sy : ℚ) :
    OCInv (initState g sx sy) := by
  refine ⟨by simp [initState], by simp [initState], ?_⟩
  intro k ⟨_, hc⟩
  simp [initState, dictLookup_nil] at hc

/-- C7: throughout every planning call the open and closed dicts are
disjoint (no cell identifier is a key of both), and once an identifier has
been moved to the closed dict it stays closed and is never re-inserted into
the open dict for the remainder of the call. -/
theorem C7_disjoint_no_reopen (g : AStarPlanner) (sx sy gx gy : ℚ)
    (s s2 : OCState)
    (h0 : AReach g (goalNode g gx gy) (initState g sx sy) s)
    (h1 : AReach g (goalNode g gx gy) s s2) :
    (∀ k, ¬((dictLookup s.1 k).isSome ∧ (dictLookup s.2 k).isSome)) ∧
    (∀ k, (dictLookup s.2 k).isSome →
      (dictLookup s2.2 k).isSome ∧ ¬(dictLookup s2.1 k).isSome) := by
  have hs := areach_inv h0 (initState_inv g sx sy)
  have hs2 := areach_inv h1 hs.1
  refine ⟨hs.1.2.2, fun k hk => ⟨hs2.2 k hk, fun hopen => ?_⟩⟩
  exact hs2.1.2.2 k ⟨hopen, hs2.2 k hk⟩

/-- Witness for C7: the initial state of a concrete call. -/
theorem C7_disjoint_no_reopen_witness :
    (∀ k, ¬((dictLookup (initState ⟨1, 0, 0, 0, 3, 3, 3, 3,
        [[false, false, false], [false, false, false],
         [false, false, false]]⟩ 0 0).1 k).isSome ∧
      (dictLookup (initState ⟨1, 0, 0, 0, 3, 3, 3, 3,
        [[false, false, false], [false, false, false],
         [false, false, false]]⟩ 0 0).2 k).isSome)) ∧
    (∀ k, (dictLookup (initState ⟨1, 0, 0, 0, 3, 3, 3, 3,
        [[false, false, false], [false, false, false],
         [false, false, false]]⟩ 0 0).2 k).isSome →
      (dictLookup (initState ⟨1, 0, 0, 0, 3, 3, 3, 3,
        [[false, false, false], [false, false, false],
         [false, false, false]]⟩ 0 0).2 k).isSome ∧
      ¬(dictLookup (initState ⟨1, 0, 0, 0, 3, 3, 3, 3,
        [[false, false, false], [false, false, false],
         [false, false, false]]⟩ 0 0).1 k).isSome) :=
  C7_disjoint_no_reopen ⟨1, 0, 0, 0, 3, 3, 3, 3,
      [[false, false, false], [false, false, false], [false, false, false]]⟩
    0 0 2 2 _ _ Relation.ReflTransGen.refl Relation.ReflTransGen.refl

/-! Correctness of the exact comparison procedures against the reals. -/

theorem sq_le_sq_iff_real {x y : ℝ} (hx : 0 ≤ x) (hy : 0 ≤ y) :
    x ≤ y ↔ x ^ 2 ≤ y ^ 2 := by
  constructor
  · intro h
    nlinarith
  · intro h
    nlinarith

theorem sqrt_two_sq : Real.sqrt 2 ^ 2 = 2 :=
  Real.sq_sqrt (by norm_num)

theorem s2_nonneg_iff (a b : ℚ) :
    s2_nonneg a b = true ↔ 0 ≤ (a : ℝ) + (b : ℝ) * Real.sqrt 2 := by
  have hs2 : (0 : ℝ) ≤ Real.sqrt 2 := Real.sqrt_nonneg 2
  rw [s2_nonneg]
  split_ifs with hb
  · have hbr : (0 : ℝ) ≤ (b : ℝ) := by exact_mod_cast hb
    rw [Bool.or_eq_true, decide_eq_true_eq, decide_eq_true_eq]
    constructor
    · rintro (ha | hsq)
      · have har : (0 : ℝ) ≤ (a : ℝ) := by exact_mod_cast ha
        nlinarith
      · have hsqr : (a : ℝ) ^ 2 ≤ 2 * (b : ℝ) ^ 2 := by exact_mod_cast hsq
        rcases le_or_lt 0 ((a : ℝ)) with ha | ha
        · nlinarith
        · have key : -(a : ℝ) ≤ (b : ℝ) * Real.sqrt 2 := by
            rw [sq_le_sq_iff_real (by linarith) (mul_nonneg hbr hs2)]
            calc (-(a : ℝ)) ^ 2 = (a : ℝ) ^ 2 := by ring
              _ ≤ 2 * (b : ℝ) ^ 2 := hsqr
              _ = ((b : ℝ) * Real.sqrt 2) ^ 2 := by
                  rw [mul_pow, sqrt_two_sq]
                  ring
          linarith
    · intro h
      rcases le_or_lt 0 a with ha | ha
      · exact .inl ha
      · right
        have har : (a : ℝ) < 0 := by exact_mod_cast ha
        have key : -(a : ℝ) ≤ (b : ℝ) * Real.sqrt 2 := by linarith
        have hsqr : (a : ℝ) ^ 2 ≤ 2 * (b : ℝ) ^ 2 := by
          have := (sq_le_sq_iff_real (by linarith) (mul_nonneg hbr hs2)).mp key
          calc (a : ℝ) ^ 2 = (-(a : ℝ)) ^ 2 := by ring
            _ ≤ ((b : ℝ) * Real.sqrt 2) ^ 2 := this
            _ = 2 * (b : ℝ) ^ 2 := by rw [mul_pow, sqrt_two_sq]; ring
        exact_mod_cast hsqr
  · push_neg at hb
    have hbr : (b : ℝ) < 0 := by exact_mod_cast hb
    rw [Bool.and_eq_true, decide_eq_true_eq, decide_eq_true_eq]
    constructor
    · rintro ⟨ha, hsq⟩
      have har : (0 : ℝ) ≤ (a : ℝ) := by exact_mod_cast ha
      have hsqr : 2 * (b : ℝ) ^ 2 ≤ (a : ℝ) ^ 2 := by exact_mod_cast hsq
      have key : -((b : ℝ) * Real.sqrt 2) ≤ (a : ℝ) := by
        rw [sq_le_sq_iff_real (by nlinarith) har]
        calc (-((b : ℝ) * Real.sqrt 2)) ^ 2 = 2 * (b : ℝ) ^ 2 := by
              rw [neg_pow, mul_pow, sqrt_two_sq]
              ring
          _ ≤ (a : ℝ) ^ 2 := hsqr
      linarith
    · intro h
      have hbs : (b : ℝ) * Real.sqrt 2 < 0 := by
        apply mul_neg_of_neg_of_pos hbr
        have : (0 : ℝ) < 2 := by norm_num
        exact Real.sqrt_pos.mpr this
      have har : (0 : ℝ) ≤ (a : ℝ) := by linarith
      refine ⟨by exact_mod_cast har, ?_⟩
      have key : -((b : ℝ) * Real.sqrt 2) ≤ (a : ℝ) := by linarith
      have hsqr : 2 * (b : ℝ) ^ 2 ≤ (a : ℝ) ^ 2 := by
        have := (sq_le_sq_iff_real (by linarith) har).mp key
        calc 2 * (b : ℝ) ^ 2 = (-((b : ℝ) * Real.sqrt 2)) ^ 2 := by
              rw [neg_pow, mul_pow, sqrt_two_sq]
              ring
          _ ≤ (a : ℝ) ^ 2 := this
      exact_mod_cast hsqr

theorem s2_pos_iff (a b : ℚ) :
    s2_pos a b = true ↔ 0 < (a : ℝ) + (b : ℝ) * Real.sqrt 2 := by
  rw [s2_pos, Bool.not_eq_true', ← Bool.not_eq_true, s2_nonneg_iff, not_le]
  push_cast
  constructor
  · intro h
    linarith
  · intro h
    linarith

theorem s2_nonneg_false_iff (a b : ℚ) :
    s2_nonneg a b = false ↔ (a : ℝ) + (b : ℝ) * Real.sqrt 2 < 0 := by
  rw [← Bool.not_eq_true, s2_nonneg_iff]
  push_neg
  rfl

theorem s2_pos_false_iff (a b : ℚ) :
    s2_pos a b = false ↔ (a : ℝ) + (b : ℝ) * Real.sqrt 2 ≤ 0 := by
  rw [← Bool.not_eq_true, s2_pos_iff]
  push_neg
  rfl

theorem s2_sq (a b : ℝ) : (a + b * Real.sqrt 2) ^ 2 =
    (a ^ 2 + 2 * b ^ 2) + (2 * a * b) * Real.sqrt 2 := by
  have h := sqrt_two_sq
  nlinarith [h]

theorem sqrt_natCast_nonneg (m : ℕ) : (0 : ℝ) ≤ Real.sqrt (m : ℝ) :=
  Real.sqrt_nonneg _

theorem sqrt_natCast_sq (m : ℕ) : Real.sqrt (m : ℝ) ^ 2 = (m : ℝ) :=
  Real.sq_sqrt (by positivity)

theorem s2r_le_iff (a b : ℚ) (m : ℕ) :
    s2r_le a b m = true ↔
      (a : ℝ) + (b : ℝ) * Real.sqrt 2 ≤ Real.sqrt (m : ℝ) := by
  have hm : (0 : ℝ) ≤ Real.sqrt (m : ℝ) := sqrt_natCast_nonneg m
  rw [s2r_le, Bool.or_eq_true, Bool.not_eq_true', s2_pos_false_iff,
    s2_nonneg_iff]
  constructor
  · rintro (hT | hsq)
    · linarith
    · rcases le_or_lt ((a : ℝ) + (b : ℝ) * Real.sqrt 2) 0 with hT | hT
      · linarith
      · rw [sq_le_sq_iff_real (le_of_lt hT) hm, sqrt_natCast_sq, s2_sq]
        push_cast at hsq
        linarith
  · intro h
    rcases le_or_lt ((a : ℝ) + (b : ℝ) * Real.sqrt 2) 0 with hT | hT
    · exact .inl hT
    · right
      have hsq := (sq_le_sq_iff_real (le_of_lt hT) hm).mp h
      rw [sqrt_natCast_sq, s2_sq] at hsq
      push_cast
      linarith

theorem r_s2_le_iff (m : ℕ) (a b : ℚ) :
    r_s2_le m a b = true ↔
      Real.sqrt (m : ℝ) ≤ (a : ℝ) + (b : ℝ) * Real.sqrt 2 := by
  have hm : (0 : ℝ) ≤ Real.sqrt (m : ℝ) := sqrt_natCast_nonneg m
  rw [r_s2_le, Bool.and_eq_true, s2_nonneg_iff, s2_nonneg_iff]
  constructor
  · rintro ⟨hT, hsq⟩
    rw [sq_le_sq_iff_real hm hT, sqrt_natCast_sq, s2_sq]
    push_cast at hsq
    linarith
  · intro h
    have hT : (0 : ℝ) ≤ (a : ℝ) + (b : ℝ) * Real.sqrt 2 := le_trans hm h
    refine ⟨hT, ?_⟩
    have hsq := (sq_le_sq_iff_real hm hT).mp h
    rw [sqrt_natCast_sq, s2_sq] at hsq
    push_cast
    linarith

theorem sqrt_four_mul (m1 m2 : ℕ) :
    Real.sqrt ((4 * m1 * m2 : ℕ) : ℝ) =
      2 * (Real.sqrt (m1 : ℝ) * Real.sqrt (m2 : ℝ)) := by
  have h4 : ((4 * m1 * m2 : ℕ) : ℝ) = 4 * ((m1 : ℝ) * (m2 : ℝ)) := by
    push_cast
    ring
  rw [h4, show (4 : ℝ) * ((m1 : ℝ) * (m2 : ℝ)) =
      (2 : ℝ) ^ 2 * ((m1 : ℝ) * (m2 : ℝ)) from by ring,
    Real.sqrt_mul (by positivity), Real.sqrt_sq (by norm_num),
    Real.sqrt_mul (by positivity)]

theorem fLe_iff (u1 v1 : ℚ) (m1 : ℕ) (u2 v2 : ℚ) (m2 : ℕ) :
    fLe u1 v1 m1 u2 v2 m2 = true ↔
      (u1 : ℝ) + (v1 : ℝ) * Real.sqrt 2 + Real.sqrt (m1 : ℝ) ≤
        (u2 : ℝ) + (v2 : ℝ) * Real.sqrt 2 + Real.sqrt (m2 : ℝ) := by
  have hm1 : (0 : ℝ) ≤ Real.sqrt (m1 : ℝ) := sqrt_natCast_nonneg m1
  have hm2 : (0 : ℝ) ≤ Real.sqrt (m2 : ℝ) := sqrt_natCast_nonneg m2
  set S1 := (u1 : ℝ) + (v1 : ℝ) * Real.sqrt 2 with hS1
  set S2 := (u2 : ℝ) + (v2 : ℝ) * Real.sqrt 2 with hS2
  have hL : ((u1 - u2 : ℚ) : ℝ) + ((v1 - v2 : ℚ) : ℝ) * Real.sqrt 2 =
      S1 - S2 := by
    rw [hS1, hS2]
    push_cast
    ring
  have hLsq : (S1 - S2) ^ 2 =
      (((u1 - u2 : ℚ) : ℝ) ^ 2 + 2 * ((v1 - v2 : ℚ) : ℝ) ^ 2) +
        (2 * ((u1 - u2 : ℚ) : ℝ) * ((v1 - v2 : ℚ) : ℝ)) * Real.sqrt 2 := by
    rw [← hL, s2_sq]
  have hexp : (Real.sqrt (m2 : ℝ) - Real.sqrt (m1 : ℝ)) ^ 2 =
      (m1 : ℝ) + (m2 : ℝ) -
        2 * (Real.sqrt (m1 : ℝ) * Real.sqrt (m2 : ℝ)) := by
    have h1 := sqrt_natCast_sq m1
    have h2 := sqrt_natCast_sq m2
    nlinarith [h1, h2]
  rw [fLe]
  split_ifs with hpos hm12 hm12
  · -- L > 0 and m1 ≤ m2
    rw [s2_pos_iff, hL] at hpos
    have hms : Real.sqrt (m1 : ℝ) ≤ Real.sqrt (m2 : ℝ) :=
      Real.sqrt_le_sqrt (by exact_mod_cast hm12)
    rw [r_s2_le_iff, sqrt_four_mul]
    have key : (S1 + Real.sqrt (m1 : ℝ) ≤ S2 + Real.sqrt (m2 : ℝ)) ↔
        S1 - S2 ≤ Real.sqrt (m2 : ℝ) - Real.sqrt (m1 : ℝ) := by
      constructor
      · intro h
        linarith
      · intro h
        linarith
    have h2 : (S1 + Real.sqrt (m1 : ℝ) ≤ S2 + Real.sqrt (m2 : ℝ)) ↔
        (S1 - S2) ^ 2 ≤ (Real.sqrt (m2 : ℝ) - Real.sqrt (m1 : ℝ)) ^ 2 :=
      key.trans (sq_le_sq_iff_real (le_of_lt hpos) (by linarith))
    rw [h2, hexp, hLsq]
    push_cast
    constructor
    · intro h
      linarith
    · intro h
      linarith
  · -- L > 0 and m1 > m2 : comparison is false
    rw [s2_pos_iff, hL] at hpos
    push_neg at hm12
    have hms : Real.sqrt (m2 : ℝ) ≤ Real.sqrt (m1 : ℝ) :=
      Real.sqrt_le_sqrt (by exact_mod_cast le_of_lt hm12)
    simp only [Bool.false_eq_true, false_iff, not_le]
    linarith
  · -- L ≤ 0 and m1 ≤ m2 : comparison is true
    rw [Bool.not_eq_true, s2_pos_false_iff, hL] at hpos
    have hms : Real.sqrt (m1 : ℝ) ≤ Real.sqrt (m2 : ℝ) :=
      Real.sqrt_le_sqrt (by exact_mod_cast hm12)
    simp only [true_iff]
    linarith
  · -- L ≤ 0 and m1 > m2
    rw [Bool.not_eq_true, s2_pos_false_iff, hL] at hpos
    push_neg at hm12
    have hms : Real.sqrt (m2 : ℝ) ≤ Real.sqrt (m1 : ℝ) :=
      Real.sqrt_le_sqrt (by exact_mod_cast le_of_lt hm12)
    rw [s2r_le_iff, sqrt_four_mul]
    have key : (S1 + Real.sqrt (m1 : ℝ) ≤ S2 + Real.sqrt (m2 : ℝ)) ↔
        Real.sqrt (m1 : ℝ) - Real.sqrt (m2 : ℝ) ≤ S2 - S1 := by
      constructor
      · intro h
        linarith
      · intro h
        linarith
    have hexp2 : (Real.sqrt (m1 : ℝ) - Real.sqrt (m2 : ℝ)) ^ 2 =
        (m1 : ℝ) + (m2 : ℝ) -
          2 * (Real.sqrt (m1 : ℝ) * Real.sqrt (m2 : ℝ)) := by
      rw [show (Real.sqrt (m1 : ℝ) - Real.sqrt (m2 : ℝ)) ^ 2 =
        (Real.sqrt (m2 : ℝ) - Real.sqrt (m1 : ℝ)) ^ 2 from by ring, hexp]
    have hLsq2 : (S2 - S1) ^ 2 =
        (((u1 - u2 : ℚ) : ℝ) ^ 2 + 2 * ((v1 - v2 : ℚ) : ℝ) ^ 2) +
          (2 * ((u1 - u2 : ℚ) : ℝ) * ((v1 - v2 : ℚ) : ℝ)) * Real.sqrt 2 := by
      rw [show (S2 - S1) ^ 2 = (S1 - S2) ^ 2 from by ring, hLsq]
    have h2 : (S1 + Real.sqrt (m1 : ℝ) ≤ S2 + Real.sqrt (m2 : ℝ)) ↔
        (Real.sqrt (m1 : ℝ) - Real.sqrt (m2 : ℝ)) ^ 2 ≤ (S2 - S1) ^ 2 :=
      key.trans (sq_le_sq_iff_real (by linarith) (by linarith))
    rw [h2, hexp2, hLsq2]
    push_cast
    constructor
    · intro h
      linarith
    · intro h
      linarith

theorem fLt_iff (u1 v1 : ℚ) (m1 : ℕ) (u2 v2 : ℚ) (m2 : ℕ) :
    fLt u1 v1 m1 u2 v2 m2 = true ↔
      (u1 : ℝ) + (v1 : ℝ) * Real.sqrt 2 + Real.sqrt (m1 : ℝ) <
        (u2 : ℝ) + (v2 : ℝ) * Real.sqrt 2 + Real.sqrt (m2 : ℝ) := by
  rw [fLt, Bool.not_eq_true', ← Bool.not_eq_true, fLe_iff, not_le]

theorem costGt_iff (c d : ℚ × ℚ) :
    costGt c d = true ↔ costValR d < costValR c := by
  rw [costGt, s2_pos_iff, costValR, costValR]
  push_cast
  constructor
  · intro h
    linarith
  · intro h
    linarith

theorem dictLookup_eq_of_mem_nodup {d : List (ℤ × Node)} {e : ℤ × Node}
    (hmem : e ∈ d) (hnd : (d.map Prod.fst).Nodup) :
    dictLookup d e.1 = some e.2 := by
  induction d with
  | nil => simp at hmem
  | cons f fs ih =>
      obtain ⟨j, w⟩ := f
      simp only [List.map_cons, List.nodup_cons] at hnd
      rcases List.mem_cons.mp hmem with rfl | hmem2
      · rw [dictLookup_cons, if_pos rfl]
      · rw [dictLookup_cons]
        have hne : j ≠ e.1 := by
          intro hj
          apply hnd.1
          rw [hj]
          exact List.mem_map_of_mem Prod.fst hmem2
        rw [if_neg hne]
        exact ih hmem2 hnd.2

/-- The element tracked by `argminAux` attains the least real `f`-value
among the initial best and the remaining entries, and is first among
minima (we only need minimality). -/
theorem argminAux_spec (goal : Node) :
    ∀ (l : List (ℤ × Node)) (best : ℤ × Node),
    ∃ e, e ∈ best :: l ∧ argminAux goal l best = e.1 ∧
      ∀ e2 ∈ best :: l, fvalR goal e ≤ fvalR goal e2 := by
  intro l
  induction l with
  | nil =>
      intro best
      refine ⟨best, List.mem_cons_self _ _, rfl, ?_⟩
      intro e2 he2
      rcases List.mem_cons.mp he2 with rfl | h
      · exact le_refl _
      · simp at h
  | cons a l ih =>
      intro best
      rw [argminAux]
      by_cases hlt : fLt (fval goal a).1.1 (fval goal a).1.2 (fval goal a).2
          (fval goal best).1.1 (fval goal best).1.2 (fval goal best).2
      · rw [if_pos hlt]
        have hab : fvalR goal a < fvalR goal best := by
          have := (fLt_iff _ _ _ _ _ _).mp hlt
          simpa [fval, fvalR] using this
        obtain ⟨e, hmem, heq, hmin⟩ := ih a
        refine ⟨e, ?_, heq, ?_⟩
        · rcases List.mem_cons.mp hmem with rfl | h
          · exact List.mem_cons_of_mem _ (List.mem_cons_self _ _)
          · exact List.mem_cons_of_mem _ (List.mem_cons_of_mem _ h)
        · intro e2 he2
          rcases List.mem_cons.mp he2 with rfl | h2
          · calc fvalR goal e ≤ fvalR goal a := hmin a (List.mem_cons_self _ _)
              _ ≤ fvalR goal e2 := le_of_lt hab
          · exact hmin e2 h2
      · rw [if_neg hlt]
        have hab : fvalR goal best ≤ fvalR goal a := by
          have hle : ¬(fvalR goal a < fvalR goal best) := by
            intro hcon
            apply hlt
            rw [fLt_iff]
            simpa [fval, fvalR] using hcon
          linarith [lt_or_ge (fvalR goal a) (fvalR goal best),
            le_of_not_lt hle]
        obtain ⟨e, hmem, heq, hmin⟩ := ih best
        refine ⟨e, ?_, heq, ?_⟩
        · rcases List.mem_cons.mp hmem with rfl | h
          · exact List.mem_cons_self _ _
          · exact List.mem_cons_of_mem _ (List.mem_cons_of_mem _ h)
        · intro e2 he2
          rcases List.mem_cons.mp he2 with rfl | h2
          · exact hmin e2 (List.mem_cons_self _ _)
          · rcases List.mem_cons.mp h2 with rfl | h3
            · calc fvalR goal e ≤ fvalR goal best :=
                  hmin best (List.mem_cons_self _ _)
                _ ≤ fvalR goal e2 := hab
            · exact hmin e2 (List.mem_cons_of_mem _ h3)

/-- On a nonempty open dict with unique keys, the key chosen by `argminKey`
is present, and its node attains the least real `f`-value. -/
theorem argminKey_spec {goal : Node} {openl : List (ℤ × Node)}
    (hne : openl ≠ []) (hnd : (openl.map Prod.fst).Nodup) :
    ∃ cur, dictLookup openl (argminKey goal openl) = some cur ∧
      ∀ e ∈ openl, fvalR goal (argminKey goal openl, cur) ≤ fvalR goal e := by
  cases openl with
  | nil => exact absurd rfl hne
  | cons b rest =>
      obtain ⟨e, hmem, heq, hmin⟩ := argminAux_spec goal rest b
      rw [argminKey, heq]
      refine ⟨e.2, ?_, ?_⟩
      · exact dictLookup_eq_of_mem_nodup hmem hnd
      · intro e2 he2
        have : fvalR goal (e.1, e.2) = fvalR goal e := by
          simp [fvalR]
        rw [this]
        exact hmin e2 he2

theorem pyGet_ok {α : Type} {l : List α} {i : ℤ} {a : α}
    (h0 : 0 ≤ i) (ha : l.get? i.toNat = some a) : pyGet l i = .ok a := by
  rw [pyGet]
  have hni : ¬i < 0 := not_lt.mpr h0
  simp only [hni, if_false, ha]

/-- Under a well-formed grid, `verify_node` never raises and returns
exactly the free-cell test for the node's cell. -/
theorem verify_node_wf {g : AStarPlanner} (hwf : WFGrid g) (node : Node) :
    verify_node g node = .ok (decide (freeCell g (node.x, node.y))) := by
  obtain ⟨⟨hres, hwx, hwy⟩, hlen, hrows⟩ := hwf
  rw [verify_node]
  simp only [calc_grid_position]
  have hx0 : (node.x : ℚ) * g.resolution + (g.min_x : ℚ) < (g.min_x : ℚ) ↔
      node.x < 0 := by
    constructor
    · intro h
      by_contra hc
      push_neg at hc
      have : (0 : ℚ) ≤ (node.x : ℚ) * g.resolution :=
        mul_nonneg (by exact_mod_cast hc) (le_of_lt hres)
      linarith
    · intro h
      have hxn : (node.x : ℚ) < 0 := by exact_mod_cast h
      nlinarith
  have hxw : (g.max_x : ℚ) ≤ (node.x : ℚ) * g.resolution + (g.min_x : ℚ) ↔
      g.x_width ≤ node.x := by
    constructor
    · intro h
      by_contra hc
      push_neg at hc
      have hcq : (node.x : ℚ) < (g.x_width : ℚ) := by exact_mod_cast hc
      nlinarith
    · intro h
      have hcq : (g.x_width : ℚ) ≤ (node.x : ℚ) := by exact_mod_cast h
      nlinarith
  have hy0 : (node.y : ℚ) * g.resolution + (g.min_y : ℚ) < (g.min_y : ℚ) ↔
      node.y < 0 := by
    constructor
    · intro h
      by_contra hc
      push_neg at hc
      have : (0 : ℚ) ≤ (node.y : ℚ) * g.resolution :=
        mul_nonneg (by exact_mod_cast hc) (le_of_lt hres)
      linarith
    · intro h
      have hxn : (node.y : ℚ) < 0 := by exact_mod_cast h
      nlinarith
  have hyw : (g.max_y : ℚ) ≤ (node.y : ℚ) * g.resolution + (g.min_y : ℚ) ↔
      g.y_width ≤ node.y := by
    constructor
    · intro h
      by_contra hc
      push_neg at hc
      have hcq : (node.y : ℚ) < (g.y_width : ℚ) := by exact_mod_cast hc
      nlinarith
    · intro h
      have hcq : (g.y_width : ℚ) ≤ (node.y : ℚ) := by exact_mod_cast h
      nlinarith
  by_cases hx : node.x < 0
  · rw [if_pos (hx0.mpr hx)]
    have : ¬freeCell g (node.x, node.y) := by
      intro hf
      exact absurd hf.1 (by simpa using hx)
    simp [this]
  · rw [if_neg (fun hc => hx (hx0.mp hc))]
    by_cases hy : node.y < 0
    · rw [if_pos (hy0.mpr hy)]
      have : ¬freeCell g (node.x, node.y) := by
        intro hf
        exact absurd hf.2.2.1 (by simpa using hy)
      simp [this]
    · rw [if_neg (fun hc => hy (hy0.mp hc))]
      by_cases hxw2 : g.x_width ≤ node.x
      · rw [if_pos (hxw.mpr hxw2)]
        have : ¬freeCell g (node.x, node.y) := by
          intro hf
          exact absurd hf.2.1 (not_lt.mpr hxw2)
        simp [this]
      · rw [if_neg (fun hc => hxw2 (hxw.mp hc))]
        by_cases hyw2 : g.y_width ≤ node.y
        · rw [if_pos (hyw.mpr hyw2)]
          have : ¬freeCell g (node.x, node.y) := by
            intro hf
            exact absurd hf.2.2.2.1 (not_lt.mpr hyw2)
          simp [this]
        · rw [if_neg (fun hc => hyw2 (hyw.mp hc))]
          push_neg at hx hy hxw2 hyw2
          -- in-range: the map accesses succeed
          have hxlen : node.x.toNat < g.obstacle_map.length := by
            rw [hlen]
            omega
          have hrow : g.obstacle_map.get? node.x.toNat =
              some (g.obstacle_map.get ⟨node.x.toNat, hxlen⟩) :=
            List.get?_eq_get hxlen
          set row := g.obstacle_map.get ⟨node.x.toNat, hxlen⟩ with hrowdef
          have hrowmem : row ∈ g.obstacle_map := List.get_mem _ _ hxlen
          have hylen : node.y.toNat < row.length := by
            rw [hrows row hrowmem]
            omega
          have hb : row.get? node.y.toNat =
              some (row.get ⟨node.y.toNat, hylen⟩) := List.get?_eq_get hylen
          set b := row.get ⟨node.y.toNat, hylen⟩ with hbdef
          rw [pyGet_ok hx hrow]
          simp only [Except.instMonad, Bind.bind, Except.bind]
          rw [pyGet_ok hy hb]
          have h1 : g.obstacle_map.getD node.x.toNat [] = row := by
            rw [List.getD, hrow]
            rfl
          have h2 : row.getD node.y.toNat false = b := by
            rw [List.getD, hb]
            rfl
          have hcb : cellBlocked g (node.x, node.y) = b := by
            show (g.obstacle_map.getD node.x.toNat []).getD node.y.toNat
              false = b
            rw [h1, h2]
          show (if b = true then (Except.pure false : Except PyErr Bool)
            else Except.pure true) = .ok (decide (freeCell g (node.x, node.y)))
          by_cases hbb : b = true
          · rw [if_pos hbb]
            have hnf : ¬freeCell g (node.x, node.y) := by
              intro hf
              rw [hf.2.2.2.2, hbb] at hcb
              exact Bool.false_ne_true hcb
            simp [Except.pure, hnf]
          · rw [if_neg hbb]
            have hbf : b = false := by
              cases hc : b
              · rfl
              · exact absurd hc hbb
            have hfr : freeCell g (node.x, node.y) := by
              refine ⟨by omega, by omega, by omega, by omega, ?_⟩
              rw [hcb, hbf]
            simp [Except.pure, hfr]

/-! Lemmas about cells, paths and costs. -/

theorem costValR_add (c d : ℚ × ℚ) :
    costValR (costAdd c d) = costValR c + costValR d := by
  rw [costValR, costValR, costValR, costAdd]
  push_cast
  ring

theorem calc_grid_index_eq_keyOf (g : AStarPlanner) (n : Node) :
    calc_grid_index g n = keyOf g (nodeCell n) := rfl

/-- The cell identifier is injective on in-grid cells. -/
theorem keyOf_inj {g : AStarPlanner} {c1 c2 : Cell}
    (h1x : 0 ≤ c1.1) (h1x2 : c1.1 < g.x_width)
    (h2x : 0 ≤ c2.1) (h2x2 : c2.1 < g.x_width)
    (hk : keyOf g c1 = keyOf g c2) : c1 = c2 := by
  rw [keyOf, keyOf] at hk
  have hx : (c1.2 - c2.2) * g.x_width = c2.1 - c1.1 := by ring_nf; linarith [hk]
  have habs : -g.x_width < c2.1 - c1.1 ∧ c2.1 - c1.1 < g.x_width := by omega
  have hy : c1.2 = c2.2 := by
    by_contra hne
    rcases lt_or_gt_of_ne hne with hlt | hgt
    · have h1 : c1.2 - c2.2 ≤ -1 := by omega
      have h2 : (c1.2 - c2.2) * g.x_width ≤ -g.x_width := by nlinarith [habs.1]
      omega
    · have h1 : 1 ≤ c1.2 - c2.2 := by omega
      have h2 : g.x_width ≤ (c1.2 - c2.2) * g.x_width := by nlinarith [habs.1]
      omega
  have hx2 : c1.1 = c2.1 := by
    rw [hy] at hx
    simp at hx
    omega
  exact Prod.ext hx2 hy

/-- Inversion of 8-adjacency: the step is one of the eight motions, with
the matching exact cost. -/
theorem adjStep_inv {a b : Cell} (h : adjStep a b) :
    ∃ m ∈ get_motion_model, b.1 = a.1 + m.1 ∧ b.2 = a.2 + m.2.1 ∧
      stepW a b = m.2.2 := by
  rw [adjStep, Option.isSome_iff_exists] at h
  obtain ⟨m, hm⟩ := h
  refine ⟨m, List.mem_of_find?_eq_some hm, ?_, ?_, ?_⟩
  · have := List.find?_some hm
    rw [Bool.decide_and] at this
    rw [Bool.and_eq_true, decide_eq_true_eq, decide_eq_true_eq] at this
    omega
  · have := List.find?_some hm
    rw [Bool.decide_and] at this
    rw [Bool.and_eq_true, decide_eq_true_eq, decide_eq_true_eq] at this
    omega
  · rw [stepW, hm]

/-- Conversely, shifting a cell by a motion gives an 8-adjacent cell with
that motion's exact cost. -/
theorem motion_adjStep (a : Cell) (m : ℤ × ℤ × (ℚ × ℚ))
    (hm : m ∈ get_motion_model) :
    adjStep a (a.1 + m.1, a.2 + m.2.1) ∧
      stepW a (a.1 + m.1, a.2 + m.2.1) = m.2.2 := by
  fin_cases hm <;>
    refine ⟨?_, ?_⟩ <;>
      simp [adjStep, motionOf, get_motion_model, List.find?, stepW,
        add_sub_cancel_left]

/-- The step costs of the motion model are the Euclidean step lengths. -/
theorem stepW_len {a b : Cell} (h : adjStep a b) :
    costValR (stepW a b) =
      Real.sqrt ((((b.1 - a.1) ^ 2 + (b.2 - a.2) ^ 2 : ℤ)) : ℝ) := by
  obtain ⟨m, hm, hx, hy, hw⟩ := adjStep_inv h
  rw [hw, hx, hy]
  fin_cases hm <;> simp [costValR]

theorem chainCost_nonneg (l : List Cell) :
    0 ≤ (chainCost l).1 ∧ 0 ≤ (chainCost l).2 := by
  induction l with
  | nil => simp [chainCost]
  | cons a l ih =>
      cases l with
      | nil => simp [chainCost]
      | cons b l2 =>
          rw [chainCost]
          have hw : 0 ≤ (stepW a b).1 ∧ 0 ≤ (stepW a b).2 := by
            rw [stepW]
            cases hmo : motionOf a b with
            | none => simp
            | some m =>
                have hm := List.mem_of_find?_eq_some hmo
                fin_cases hm <;> simp
          obtain ⟨ih1, ih2⟩ := ih
          exact ⟨by rw [costAdd]; exact add_nonneg hw.1 ih1,
                 by rw [costAdd]; exact add_nonneg hw.2 ih2⟩

theorem costValR_nonneg_of_pair {c : ℚ × ℚ} (h1 : 0 ≤ c.1) (h2 : 0 ≤ c.2) :
    0 ≤ costValR c := by
  rw [costValR]
  have := Real.sqrt_nonneg 2
  have h1r : (0 : ℝ) ≤ (c.1 : ℝ) := by exact_mod_cast h1
  have h2r : (0 : ℝ) ≤ (c.2 : ℝ) := by exact_mod_cast h2
  nlinarith

theorem chainCostR_nonneg (l : List Cell) : 0 ≤ chainCostR l := by
  rw [chainCostR]
  exact costValR_nonneg_of_pair (chainCost_nonneg l).1 (chainCost_nonneg l).2

theorem stepW_pos {a b : Cell} (h : adjStep a b) :
    0 < costValR (stepW a b) := by
  obtain ⟨m, hm, hx, hy, hw⟩ := adjStep_inv h
  rw [hw]
  have hs2 : (0 : ℝ) < Real.sqrt 2 := Real.sqrt_pos.mpr (by norm_num)
  fin_cases hm <;> simp [costValR]

instance : Inhabited Cell := ⟨((0 : ℤ), (0 : ℤ))⟩

theorem costAdd_assoc (a b c : ℚ × ℚ) :
    costAdd (costAdd a b) c = costAdd a (costAdd b c) := by
  simp [costAdd]
  constructor <;> ring

theorem costAdd_zero_left (c : ℚ × ℚ) : costAdd ((0 : ℚ), (0 : ℚ)) c = c := by
  simp [costAdd]

theorem isPath_singleton (g : AStarPlanner) (c : Cell) :
    IsPath g [c] c c := by
  refine ⟨rfl, rfl, rfl, ?_⟩
  intro x hx
  simp at hx

theorem adjChain_append_single {l : List Cell} {t c : Cell}
    (hch : adjChain l = true) (hlast : l.getLast? = some t)
    (hadj : adjStep t c) : adjChain (l ++ [c]) = true := by
  induction l with
  | nil => simp at hlast
  | cons a l ih =>
      cases l with
      | nil =>
          simp only [List.getLast?_singleton, Option.some.injEq] at hlast
          subst hlast
          simp [adjChain, hadj]
      | cons b l2 =>
          rw [adjChain] at hch
          rw [Bool.and_eq_true] at hch
          have hlast2 : (b :: l2).getLast? = some t := by
            rw [List.getLast?_cons_cons] at hlast
            exact hlast
          show (decide (adjStep a b) && adjChain (b :: (l2 ++ [c]))) = true
          rw [Bool.and_eq_true]
          exact ⟨hch.1, ih hch.2 hlast2⟩

theorem chainCost_append_single {l : List Cell} {t c : Cell}
    (hlast : l.getLast? = some t) :
    chainCost (l ++ [c]) = costAdd (chainCost l) (stepW t c) := by
  induction l with
  | nil => simp at hlast
  | cons a l ih =>
      cases l with
      | nil =>
          simp only [List.getLast?_singleton, Option.some.injEq] at hlast
          subst hlast
          simp [chainCost, costAdd]
      | cons b l2 =>
          have hlast2 : (b :: l2).getLast? = some t := by
            rw [List.getLast?_cons_cons] at hlast
            exact hlast
          rw [show (a :: b :: l2) ++ [c] = a :: ((b :: l2) ++ [c]) from rfl]
          rw [show (b :: l2) ++ [c] = b :: (l2 ++ [c]) from rfl]
          rw [chainCost, chainCost]
          rw [show b :: (l2 ++ [c]) = (b :: l2) ++ [c] from rfl]
          rw [ih hlast2, costAdd_assoc]

theorem isPath_extend {g : AStarPlanner} {l : List Cell} {s t c : Cell}
    (hp : IsPath g l s t) (hadj : adjStep t c) (hfree : freeCell g c) :
    IsPath g (l ++ [c]) s c := by
  obtain ⟨hhead, hlast, hch, hfr⟩ := hp
  have hlne : l ≠ [] := by
    intro h
    rw [h] at hhead
    simp at hhead
  refine ⟨?_, ?_, adjChain_append_single hch hlast hadj, ?_⟩
  · rw [List.head?_append_of_ne_nil _ hlne]
    exact hhead
  · exact List.getLast?_concat l
  · intro x hx
    cases l with
    | nil => exact absurd rfl hlne
    | cons a l2 =>
        rw [show (a :: l2) ++ [c] = a :: (l2 ++ [c]) from rfl] at hx
        simp only [List.tail_cons] at hx ⊢
        rcases List.mem_append.mp hx with h | h
        · exact hfr x h
        · rw [List.mem_singleton] at h
          subst h
          exact hfree

theorem isPath_cost_extend {g : AStarPlanner} {l : List Cell} {s t c : Cell}
    (hp : IsPath g l s t) :
    chainCost (l ++ [c]) = costAdd (chainCost l) (stepW t c) :=
  chainCost_append_single hp.2.1

/-- The Euclidean triangle inequality in coordinates. -/
theorem euclid_triangle (x1 y1 x2 y2 : ℝ) :
    Real.sqrt ((x1 + x2) ^ 2 + (y1 + y2) ^ 2) ≤
      Real.sqrt (x1 ^ 2 + y1 ^ 2) + Real.sqrt (x2 ^ 2 + y2 ^ 2) := by
  set A := Real.sqrt (x1 ^ 2 + y1 ^ 2) with hA
  set B := Real.sqrt (x2 ^ 2 + y2 ^ 2) with hB
  have hA0 : 0 ≤ A := Real.sqrt_nonneg _
  have hB0 : 0 ≤ B := Real.sqrt_nonneg _
  have hA2 : A ^ 2 = x1 ^ 2 + y1 ^ 2 := Real.sq_sqrt (by positivity)
  have hB2 : B ^ 2 = x2 ^ 2 + y2 ^ 2 := Real.sq_sqrt (by positivity)
  rw [show Real.sqrt ((x1 + x2) ^ 2 + (y1 + y2) ^ 2) ≤ A + B ↔
      (0 ≤ A + B ∧ (x1 + x2) ^ 2 + (y1 + y2) ^ 2 ≤ (A + B) ^ 2) from by
    rw [← Real.sqrt_le_iff]]
  refine ⟨by linarith, ?_⟩
  have hcs : x1 * x2 + y1 * y2 ≤ A * B := by
    rcases le_or_lt (x1 * x2 + y1 * y2) 0 with h | h
    · exact le_trans h (mul_nonneg hA0 hB0)
    · have hsq : (x1 * x2 + y1 * y2) ^ 2 ≤ (A * B) ^ 2 := by
        rw [mul_pow, hA2, hB2]
        nlinarith [sq_nonneg (x1 * y2 - x2 * y1)]
      nlinarith [mul_nonneg hA0 hB0]
  nlinarith [hcs]

theorem cellHeurR_eq (goal : Node) (c : Cell) :
    cellHeurR goal c =
      Real.sqrt ((((goal.x - c.1) : ℤ) : ℝ) ^ 2 + (((goal.y - c.2) : ℤ) : ℝ) ^ 2) := by
  rw [cellHeurR]
  congr 1
  have hnn : (0 : ℤ) ≤ (goal.x - c.1) ^ 2 + (goal.y - c.2) ^ 2 := by positivity
  rw [show (((((goal.x - c.1) ^ 2 + (goal.y - c.2) ^ 2).toNat : ℕ)) : ℝ) =
      ((((goal.x - c.1) ^ 2 + (goal.y - c.2) ^ 2 : ℤ)) : ℝ) from by
    exact_mod_cast Int.toNat_of_nonneg hnn]
  push_cast
  ring

theorem cellHeurR_self (goal : Node) :
    cellHeurR goal (goal.x, goal.y) = 0 := by
  rw [cellHeurR_eq]
  norm_num

theorem cellHeurR_nonneg (goal : Node) (c : Cell) : 0 ≤ cellHeurR goal c :=
  Real.sqrt_nonneg _

/-- One-step consistency of the Euclidean heuristic: a single 8-connected
step of exact cost `w` changes the heuristic by at most `w`. -/
theorem heur_consistent_step (goal : Node) {a b : Cell} (h : adjStep a b) :
    cellHeurR goal a ≤ costValR (stepW a b) + cellHeurR goal b := by
  rw [cellHeurR_eq, cellHeurR_eq, stepW_len h]
  have key : Real.sqrt ((((goal.x - a.1) : ℤ) : ℝ) ^ 2 +
        (((goal.y - a.2) : ℤ) : ℝ) ^ 2) ≤
      Real.sqrt ((((b.1 - a.1) : ℤ) : ℝ) ^ 2 + (((b.2 - a.2) : ℤ) : ℝ) ^ 2) +
        Real.sqrt ((((goal.x - b.1) : ℤ) : ℝ) ^ 2 +
          (((goal.y - b.2) : ℤ) : ℝ) ^ 2) := by
    have := euclid_triangle (((b.1 - a.1) : ℤ) : ℝ) (((b.2 - a.2) : ℤ) : ℝ)
      (((goal.x - b.1) : ℤ) : ℝ) (((goal.y - b.2) : ℤ) : ℝ)
    have harg : ((((b.1 - a.1) : ℤ) : ℝ) + (((goal.x - b.1) : ℤ) : ℝ)) ^ 2 +
        ((((b.2 - a.2) : ℤ) : ℝ) + (((goal.y - b.2) : ℤ) : ℝ)) ^ 2 =
        (((goal.x - a.1) : ℤ) : ℝ) ^ 2 + (((goal.y - a.2) : ℤ) : ℝ) ^ 2 := by
      push_cast
      ring
    rw [harg] at this
    exact this
  have harg2 : ((((b.1 - a.1) ^ 2 + (b.2 - a.2) ^ 2 : ℤ)) : ℝ) =
      (((b.1 - a.1) : ℤ) : ℝ) ^ 2 + (((b.2 - a.2) : ℤ) : ℝ) ^ 2 := by
    push_cast
    ring
  rw [harg2]
  exact key

/-- Telescoped consistency along a chain of 8-connected steps. -/
theorem heur_telescope (goal : Node) :
    ∀ (l : List Cell) (s t : Cell), l.head? = some s →
      l.getLast? = some t → adjChain l = true →
      cellHeurR goal s ≤ chainCostR l + cellHeurR goal t := by
  intro l
  induction l with
  | nil =>
      intro s t hs ht hch
      simp at hs
  | cons a l ih =>
      intro s t hs ht hch
      simp only [List.head?_cons, Option.some.injEq] at hs
      subst hs
      cases l with
      | nil =>
          simp only [List.getLast?_singleton, Option.some.injEq] at ht
          subst ht
          simp [chainCostR, chainCost, costValR]
      | cons b l2 =>
          rw [adjChain, Bool.and_eq_true, decide_eq_true_eq] at hch
          have hlast2 : (b :: l2).getLast? = some t := by
            rw [List.getLast?_cons_cons] at ht
            exact ht
          have hchain : chainCostR (a :: b :: l2) =
              costValR (stepW a b) + chainCostR (b :: l2) := by
            rw [chainCostR, chainCost, costValR_add, chainCostR]
          rw [hchain]
          have hb := ih b t rfl hlast2 hch.2
          have hstep := heur_consistent_step goal hch.1
          linarith

/-- No free cell's identifier collides with the `-1` sentinel that
`calc_final_path` uses to detect the start of the parent chain.  This can
fail when the grid's world origin is away from zero (because
`calc_grid_index` subtracts `min_x`/`min_y` from indices that are already
relative), and then reconstructed paths are silently truncated. -/
def NoSentinel (g : AStarPlanner) : Prop :=
  ∀ c : Cell, freeCell g c → keyOf g c ≠ -1

/-- Parent chains through the closed dict: starting from a parent
identifier, the cells visited by repeatedly looking the identifier up and
following `parent_index`, ending at the `-1` sentinel. -/
inductive Chain (closed : List (ℤ × Node)) : ℤ → List Cell → Prop where
  | nil : Chain closed (-1) []
  | cons {k : ℤ} {n : Node} {l : List Cell} :
      dictLookup closed k = some n → Chain closed n.parent_index l →
      Chain closed k (nodeCell n :: l)

/-- Core invariant of the search loop, from start cell `sc`: both dicts
have unique, mutually disjoint keys; every entry is keyed by its node's
cell identifier; every recorded cell is the start cell or a free cell; and
every recorded node carries a parent chain through the closed dict that
traces an actual 8-connected free path from `sc` to its cell whose exact
cost is the node's recorded cost. -/
structure InvCore (g : AStarPlanner) (sc : Cell) (s : OCState) : Prop where
  nodupO : (s.1.map Prod.fst).Nodup
  nodupC : (s.2.map Prod.fst).Nodup
  disj : ∀ k : ℤ, ¬((dictLookup s.1 k).isSome ∧ (dictLookup s.2 k).isSome)
  keysO : ∀ e ∈ s.1, e.1 = keyOf g (nodeCell e.2)
  keysC : ∀ e ∈ s.2, e.1 = keyOf g (nodeCell e.2)
  cellsO : ∀ e ∈ s.1, nodeCell e.2 = sc ∨ freeCell g (nodeCell e.2)
  cellsC : ∀ e ∈ s.2, nodeCell e.2 = sc ∨ freeCell g (nodeCell e.2)
  chainO : ∀ e ∈ s.1, ∃ l, Chain s.2 e.2.parent_index l ∧
      IsPath g (nodeCell e.2 :: l).reverse sc (nodeCell e.2) ∧
      chainCost (nodeCell e.2 :: l).reverse = e.2.cost ∧ l.length ≤ s.2.length
  chainC : ∀ e ∈ s.2, ∃ l, Chain s.2 e.2.parent_index l ∧
      IsPath g (nodeCell e.2 :: l).reverse sc (nodeCell e.2) ∧
      chainCost (nodeCell e.2 :: l).reverse = e.2.cost ∧ l.length ≤ s.2.length

/-- Optimality invariant of the search loop (towards goal node `gn`): the
start is still recorded at cost `0` in one of the dicts; closed nodes have
optimal cost; every free neighbour of a closed cell is covered by an entry
whose cost is at most the closed cost plus the step cost; and the goal
cell is never closed. -/
structure InvOpt (g : AStarPlanner) (sc : Cell) (gn : Node) (s : OCState) :
    Prop where
  startOK : (∃ n, dictLookup s.1 (keyOf g sc) = some n ∧ nodeCell n = sc ∧
      costValR n.cost ≤ 0) ∨
    (∃ n, dictLookup s.2 (keyOf g sc) = some n ∧ nodeCell n = sc ∧
      costValR n.cost ≤ 0)
  optC : ∀ e ∈ s.2, ∀ l, IsPath g l sc (nodeCell e.2) →
      costValR e.2.cost ≤ chainCostR l
  covC : ∀ e ∈ s.2, ∀ c : Cell, adjStep (nodeCell e.2) c → freeCell g c →
      ∃ n, (dictLookup s.1 (keyOf g c) = some n ∨
          dictLookup s.2 (keyOf g c) = some n) ∧
        costValR n.cost ≤ costValR e.2.cost + costValR (stepW (nodeCell e.2) c)
  goalC : ∀ e ∈ s.2, nodeCell e.2 ≠ nodeCell gn

/-- All cell identifiers the search can ever close: those of in-grid cells
together with the start cell's identifier. -/
def keyFinset (g : AStarPlanner) (sc : Cell) : Finset ℤ :=
  insert (keyOf g sc)
    (((Finset.range g.x_width.toNat) ×ˢ (Finset.range g.y_width.toNat)).image
      (fun p => keyOf g ((p.1 : ℤ), (p.2 : ℤ))))

theorem chain_mono {closed closed2 : List (ℤ × Node)}
    (hsub : ∀ k n, dictLookup closed k = some n →
      dictLookup closed2 k = some n) :
    ∀ {k : ℤ} {l : List Cell}, Chain closed k l → Chain closed2 k l := by
  intro k l h
  induction h with
  | nil => exact Chain.nil
  | cons hlk hch ih => exact Chain.cons (hsub _ _ hlk) ih

theorem mem_dictSet {α : Type} {d : List (ℤ × α)} {k : ℤ} {v : α} :
    ∀ e ∈ dictSet d k v, e = (k, v) ∨ e ∈ d := by
  induction d with
  | nil =>
      intro e he
      rw [dictSet] at he
      simp at he
      exact Or.inl he
  | cons f fs ih =>
      intro e he
      rw [dictSet] at he
      by_cases hf : f.1 = k
      · rw [if_pos hf] at he
        rcases List.mem_cons.mp he with h | h
        · exact Or.inl h
        · exact Or.inr (List.mem_cons_of_mem _ h)
      · rw [if_neg hf] at he
        rcases List.mem_cons.mp he with h | h
        · exact Or.inr (h ▸ List.mem_cons_self _ _)
        · rcases ih e h with h2 | h2
          · exact Or.inl h2
          · exact Or.inr (List.mem_cons_of_mem _ h2)

theorem dictSet_fresh_append {d : List (ℤ × Node)} {k : ℤ} {v : Node}
    (h : dictLookup d k = none) : dictSet d k v = d ++ [(k, v)] := by
  induction d with
  | nil => rfl
  | cons f fs ih =>
      obtain ⟨j, w⟩ := f
      rw [dictSet]
      have hf : ¬(j, w).1 = k := by
        intro hk
        rw [dictLookup_cons, if_pos hk] at h
        exact Option.noConfusion h
      rw [if_neg hf, List.cons_append]
      congr 1
      apply ih
      rw [dictLookup_cons, if_neg hf] at h
      exact h

theorem lookup_dictSet_fresh_mono {d : List (ℤ × Node)} {k : ℤ} {v : Node}
    (hfresh : dictLookup d k = none) :
    ∀ k2 n, dictLookup d k2 = some n →
      dictLookup (dictSet d k v) k2 = some n := by
  intro k2 n h
  by_cases hk : k2 = k
  · subst hk
    rw [hfresh] at h
    exact Option.noConfusion h
  · rw [dictLookup_dictSet_ne hk]
    exact h

theorem adjChain_append_decomp :
    ∀ (l1 : List Cell) (v : Cell) (l2 : List Cell),
      l1.getLast? = some v → adjChain (l1 ++ l2) = true →
      adjChain l1 = true ∧ adjChain (v :: l2) = true := by
  intro l1
  induction l1 with
  | nil =>
      intro v l2 hv
      simp at hv
  | cons a t ih =>
      intro v l2 hv hch
      cases t with
      | nil =>
          simp only [List.getLast?_singleton, Option.some.injEq] at hv
          subst hv
          exact ⟨rfl, hch⟩
      | cons b t2 =>
          rw [List.getLast?_cons_cons] at hv
          rw [show (a :: b :: t2) ++ l2 = a :: ((b :: t2) ++ l2) from rfl,
            show (b :: t2) ++ l2 = b :: (t2 ++ l2) from rfl] at hch
          rw [adjChain, Bool.and_eq_true] at hch
          rw [show b :: (t2 ++ l2) = (b :: t2) ++ l2 from rfl] at hch
          obtain ⟨h1, h2⟩ := ih v l2 hv hch.2
          refine ⟨?_, h2⟩
          rw [adjChain, Bool.and_eq_true]
          exact ⟨hch.1, h1⟩

theorem chainCost_append :
    ∀ (l1 : List Cell) (v : Cell) (l2 : List Cell), l1.getLast? = some v →
      chainCost (l1 ++ l2) = costAdd (chainCost l1) (chainCost (v :: l2)) := by
  intro l1
  induction l1 with
  | nil =>
      intro v l2 hv
      simp at hv
  | cons a t ih =>
      intro v l2 hv
      cases t with
      | nil =>
          simp only [List.getLast?_singleton, Option.some.injEq] at hv
          subst hv
          rw [show chainCost [a] = ((0 : ℚ), (0 : ℚ)) from rfl,
            costAdd_zero_left]
          rfl
      | cons b t2 =>
          rw [List.getLast?_cons_cons] at hv
          rw [show (a :: b :: t2) ++ l2 = a :: ((b :: t2) ++ l2) from rfl]
          rw [show a :: ((b :: t2) ++ l2) = a :: b :: (t2 ++ l2) from rfl,
            chainCost]
          rw [show b :: (t2 ++ l2) = (b :: t2) ++ l2 from rfl, ih v l2 hv]
          rw [show chainCost (a :: b :: t2) =
            costAdd (stepW a b) (chainCost (b :: t2)) from rfl,
            costAdd_assoc]

theorem chainCostR_append {l1 : List Cell} {v : Cell} (l2 : List Cell)
    (hv : l1.getLast? = some v) :
    chainCostR (l1 ++ l2) = chainCostR l1 + chainCostR (v :: l2) := by
  rw [chainCostR, chainCost_append l1 v l2 hv, costValR_add]
  rfl

theorem isPath_split {g : AStarPlanner} {l1 l2 : List Cell} {s c v : Cell}
    (hv : l1.getLast? = some v) (hp : IsPath g (l1 ++ l2) s c) :
    IsPath g l1 s v ∧ IsPath g (v :: l2) v c := by
  obtain ⟨hhead, hlast, hch, hfr⟩ := hp
  have hl1ne : l1 ≠ [] := by
    intro h
    rw [h] at hv
    exact Option.noConfusion hv
  obtain ⟨hch1, hch2⟩ := adjChain_append_decomp l1 v l2 hv hch
  have htail : (l1 ++ l2).tail = l1.tail ++ l2 := by
    cases l1 with
    | nil => exact absurd rfl hl1ne
    | cons a t => rfl
  rw [htail] at hfr
  have hlast2 : (v :: l2).getLast? = some c := by
    cases l2 with
    | nil =>
        rw [List.append_nil] at hlast
        rw [hv] at hlast
        rw [List.getLast?_singleton]
        exact hlast
    | cons b t2 =>
        rw [show (l1 ++ b :: t2).getLast? = (b :: t2).getLast? from
          List.getLast?_append_of_ne_nil l1 (by simp)] at hlast
        exact hlast
  refine ⟨⟨?_, hv, hch1, ?_⟩, rfl, hlast2, hch2, ?_⟩
  · rw [List.head?_append_of_ne_nil _ hl1ne] at hhead
    exact hhead
  · intro x hx
    exact hfr x (List.mem_append_left _ hx)
  · intro x hx
    rw [List.tail_cons] at hx
    exact hfr x (List.mem_append_right _ hx)

theorem isPath_last_free {g : AStarPlanner} {l : List Cell} {s c : Cell}
    (hp : IsPath g l s c) (hne : s ≠ c) : freeCell g c := by
  obtain ⟨hhead, hlast, hch, hfr⟩ := hp
  cases l with
  | nil => exact Option.noConfusion hhead
  | cons a t =>
      simp only [List.head?_cons, Option.some.injEq] at hhead
      subst hhead
      cases t with
      | nil =>
          rw [List.getLast?_singleton] at hlast
          exact absurd (Option.some.inj hlast) hne
      | cons b t2 =>
          apply hfr
          rw [List.tail_cons]
          have : (b :: t2).getLast? = some c := by
            rw [List.getLast?_cons_cons] at hlast
            exact hlast
          have hcmem : c ∈ b :: t2 := by
            have hne2 : b :: t2 ≠ [] := by simp
            rw [List.getLast?_eq_getLast _ hne2] at this
            rw [Option.some.injEq] at this
            rw [← this]
            exact List.getLast_mem hne2
          exact hcmem

/-- A node freshly written by `expand`: a verified free neighbour of the
expanding node, parented to it, with the step-relaxed cost, and whose key
is not closed. -/
def NewAt (g : AStarPlanner) (cur : Node) (c_id : ℤ)
    (closed : List (ℤ × Node)) (k : ℤ) (n2 : Node) : Prop :=
  n2.parent_index = c_id ∧ freeCell g (nodeCell n2) ∧
    adjStep (nodeCell cur) (nodeCell n2) ∧
    n2.cost = costAdd cur.cost (stepW (nodeCell cur) (nodeCell n2)) ∧
    k = keyOf g (nodeCell n2) ∧ dictLookup closed k = none

/-- Full specification of the neighbour-expansion loop under a well-formed
grid: it never raises; it preserves key uniqueness; each key of the
resulting dict holds its old entry or a freshly relaxed neighbour of the
expanding node whose cost is no larger than any cost previously at that
key; and every free, unclosed motion neighbour ends covered by an entry at
its key with cost at most the expanding cost plus the step cost. -/
theorem expand_spec {g : AStarPlanner} (hwf : WFGrid g) (cur : Node)
    (c_id : ℤ) (closed : List (ℤ × Node)) :
    ∀ ms : List (ℤ × ℤ × (ℚ × ℚ)), ms ⊆ get_motion_model →
    ∀ openl : List (ℤ × Node),
    ∃ openl2, expand g cur c_id closed openl ms = .ok openl2 ∧
      ((openl.map Prod.fst).Nodup → (openl2.map Prod.fst).Nodup) ∧
      (∀ k, dictLookup openl2 k = dictLookup openl k ∨
        ∃ n2, dictLookup openl2 k = some n2 ∧ NewAt g cur c_id closed k n2 ∧
          ∀ n, dictLookup openl k = some n →
            costValR n2.cost ≤ costValR n.cost) ∧
      (∀ m ∈ ms, freeCell g (cur.x + m.1, cur.y + m.2.1) →
        dictLookup closed (keyOf g (cur.x + m.1, cur.y + m.2.1)) = none →
        ∃ n2, dictLookup openl2 (keyOf g (cur.x + m.1, cur.y + m.2.1)) =
            some n2 ∧
          costValR n2.cost ≤ costValR cur.cost +
            costValR (stepW (nodeCell cur) (cur.x + m.1, cur.y + m.2.1))) := by
  intro ms
  induction ms with
  | nil =>
      intro hsub openl
      refine ⟨openl, rfl, fun h => h, fun k => Or.inl rfl, ?_⟩
      intro m hm
      simp at hm
  | cons m ms ih =>
      intro hsub openl
      obtain ⟨hmm, hms⟩ := List.cons_subset.mp hsub
      set node : Node := ⟨cur.x + m.1, cur.y + m.2.1,
        costAdd cur.cost m.2.2, c_id⟩ with hnode
      have hcell : nodeCell node = (cur.x + m.1, cur.y + m.2.1) := rfl
      have hadj : adjStep (nodeCell cur) (nodeCell node) ∧
          stepW (nodeCell cur) (nodeCell node) = m.2.2 := by
        rw [hcell]
        exact motion_adjStep (nodeCell cur) m hmm
      have hkey : calc_grid_index g node = keyOf g (nodeCell node) := rfl
      have hred : expand g cur c_id closed openl (m :: ms) =
          (if !(decide (freeCell g (nodeCell node))) then
            expand g cur c_id closed openl ms
          else if (dictLookup closed (calc_grid_index g node)).isSome then
            expand g cur c_id closed openl ms
          else
            match dictLookup openl (calc_grid_index g node) with
            | none => expand g cur c_id closed
                (dictSet openl (calc_grid_index g node) node) ms
            | some old =>
                if costGt old.cost (costAdd cur.cost m.2.2) then
                  expand g cur c_id closed
                    (dictSet openl (calc_grid_index g node) node) ms
                else expand g cur c_id closed openl ms) := by
        rw [expand_cons, verify_node_wf hwf]
        simp only [Except.instMonad, Bind.bind, Except.bind]
        rfl
      by_cases hfree : freeCell g (nodeCell node)
      · rw [decide_eq_true hfree, Bool.not_true] at hred
        rw [if_neg (by simp)] at hred
        by_cases hcl : (dictLookup closed (calc_grid_index g node)).isSome
        · rw [if_pos hcl] at hred
          obtain ⟨openl2, heq, hnd, hU, hcov⟩ := ih hms openl
          refine ⟨openl2, hred.trans heq, hnd, hU, ?_⟩
          intro m2 hm2 hf2 hc2
          rcases List.mem_cons.mp hm2 with rfl | hm2r
          · exfalso
            rw [hkey, hcell] at hcl
            rw [hc2] at hcl
            simp at hcl
          · exact hcov m2 hm2r hf2 hc2
        · rw [if_neg hcl] at hred
          rw [Option.not_isSome_iff_eq_none] at hcl
          have hnew : NewAt g cur c_id closed (calc_grid_index g node) node := by
            refine ⟨rfl, hfree, hadj.1, ?_, hkey, hcl⟩
            rw [show node.cost = costAdd cur.cost m.2.2 from rfl, hadj.2]
          have hcost_node : costValR node.cost =
              costValR cur.cost +
                costValR (stepW (nodeCell cur) (nodeCell node)) := by
            rw [show node.cost = costAdd cur.cost m.2.2 from rfl, hadj.2,
              costValR_add]
          cases hlk : dictLookup openl (calc_grid_index g node) with
          | none =>
              simp only [hlk] at hred
              obtain ⟨openl2, heq, hnd, hU, hcov⟩ :=
                ih hms (dictSet openl (calc_grid_index g node) node)
              refine ⟨openl2, hred.trans heq, ?_, ?_, ?_⟩
              · intro h
                exact hnd (nodup_keys_dictSet h)
              · intro k
                by_cases hk : k = calc_grid_index g node
                · subst hk
                  rcases hU (calc_grid_index g node) with h | ⟨n2, h2, h3, h4⟩
                  · refine Or.inr ⟨node, ?_, hnew, ?_⟩
                    · rw [h, dictLookup_dictSet_self]
                    · intro n hn
                      rw [hlk] at hn
                      exact Option.noConfusion hn
                  · refine Or.inr ⟨n2, h2, h3, ?_⟩
                    intro n hn
                    rw [hlk] at hn
                    exact Option.noConfusion hn
                · rcases hU k with h | ⟨n2, h2, h3, h4⟩
                  · rw [dictLookup_dictSet_ne hk] at h
                    exact Or.inl h
                  · refine Or.inr ⟨n2, h2, h3, ?_⟩
                    intro n hn
                    apply h4
                    rw [dictLookup_dictSet_ne hk]
                    exact hn
              · intro m2 hm2 hf2 hc2
                rcases List.mem_cons.mp hm2 with rfl | hm2r
                · rw [← hcell, ← hkey]
                  rcases hU (calc_grid_index g node) with h | ⟨n2, h2, h3, h4⟩
                  · refine ⟨node, ?_, le_of_eq hcost_node⟩
                    rw [h, dictLookup_dictSet_self]
                  · exact ⟨n2, h2, (h4 node dictLookup_dictSet_self).trans
                      (le_of_eq hcost_node)⟩
                · exact hcov m2 hm2r hf2 hc2
          | some old =>
              simp only [hlk] at hred
              by_cases hgt : costGt old.cost (costAdd cur.cost m.2.2)
              · rw [if_pos hgt] at hred
                have hlt : costValR (costAdd cur.cost m.2.2) <
                    costValR old.cost := (costGt_iff _ _).mp hgt
                obtain ⟨openl2, heq, hnd, hU, hcov⟩ :=
                  ih hms (dictSet openl (calc_grid_index g node) node)
                refine ⟨openl2, hred.trans heq, ?_, ?_, ?_⟩
                · intro h
                  exact hnd (nodup_keys_dictSet h)
                · intro k
                  by_cases hk : k = calc_grid_index g node
                  · subst hk
                    rcases hU (calc_grid_index g node) with h | ⟨n2, h2, h3, h4⟩
                    · refine Or.inr ⟨node, ?_, hnew, ?_⟩
                      · rw [h, dictLookup_dictSet_self]
                      · intro n hn
                        rw [hlk] at hn
                        obtain rfl := Option.some.inj hn
                        exact le_of_lt hlt
                    · refine Or.inr ⟨n2, h2, h3, ?_⟩
                      intro n hn
                      rw [hlk] at hn
                      obtain rfl := Option.some.inj hn
                      exact (h4 node dictLookup_dictSet_self).trans
                        (le_of_lt hlt)
                  · rcases hU k with h | ⟨n2, h2, h3, h4⟩
                    · rw [dictLookup_dictSet_ne hk] at h
                      exact Or.inl h
                    · refine Or.inr ⟨n2, h2, h3, ?_⟩
                      intro n hn
                      apply h4
                      rw [dictLookup_dictSet_ne hk]
                      exact hn
                · intro m2 hm2 hf2 hc2
                  rcases List.mem_cons.mp hm2 with rfl | hm2r
                  · rw [← hcell, ← hkey]
                    rcases hU (calc_grid_index g node) with h | ⟨n2, h2, h3, h4⟩
                    · refine ⟨node, ?_, le_of_eq hcost_node⟩
                      rw [h, dictLookup_dictSet_self]
                    · exact ⟨n2, h2, (h4 node dictLookup_dictSet_self).trans
                        (le_of_eq hcost_node)⟩
                  · exact hcov m2 hm2r hf2 hc2
              · rw [if_neg hgt] at hred
                have hle : costValR old.cost ≤
                    costValR (costAdd cur.cost m.2.2) := by
                  by_contra hcon
                  exact hgt ((costGt_iff _ _).mpr (lt_of_not_le hcon))
                obtain ⟨openl2, heq, hnd, hU, hcov⟩ := ih hms openl
                refine ⟨openl2, hred.trans heq, hnd, hU, ?_⟩
                intro m2 hm2 hf2 hc2
                rcases List.mem_cons.mp hm2 with rfl | hm2r
                · rw [← hcell, ← hkey]
                  rcases hU (calc_grid_index g node) with h | ⟨n2, h2, h3, h4⟩
                  · refine ⟨old, ?_, ?_⟩
                    · rw [h, hlk]
                    · calc costValR old.cost ≤
                          costValR (costAdd cur.cost m2.2.2) := hle
                        _ = costValR node.cost := rfl
                        _ = costValR cur.cost +
                            costValR (stepW (nodeCell cur) (nodeCell node)) :=
                          hcost_node
                  · refine ⟨n2, h2, ?_⟩
                    calc costValR n2.cost ≤ costValR old.cost := h4 old hlk
                      _ ≤ costValR (costAdd cur.cost m2.2.2) := hle
                      _ = costValR node.cost := rfl
                      _ = costValR cur.cost +
                          costValR (stepW (nodeCell cur) (nodeCell node)) :=
                        hcost_node
                · exact hcov m2 hm2r hf2 hc2
      · rw [decide_eq_false hfree, Bool.not_false, if_pos rfl] at hred
        obtain ⟨openl2, heq, hnd, hU, hcov⟩ := ih hms openl
        refine ⟨openl2, hred.trans heq, hnd, hU, ?_⟩
        intro m2 hm2 hf2 hc2
        rcases List.mem_cons.mp hm2 with rfl | hm2r
        · exact absurd (show freeCell g (nodeCell node) by
            rw [hcell]
            exact hf2) hfree
        · exact hcov m2 hm2r hf2 hc2

theorem cell_eq_of_key {g : AStarPlanner} {sc : Cell} (hsc : freeCell g sc)
    {c1 c2 : Cell} (h1 : c1 = sc ∨ freeCell g c1) (h2 : freeCell g c2)
    (hk : keyOf g c1 = keyOf g c2) : c1 = c2 := by
  rcases h1 with rfl | h1
  · exact keyOf_inj hsc.1 hsc.2.1 h2.1 h2.2.1 hk
  · exact keyOf_inj h1.1 h1.2.1 h2.1 h2.2.1 hk

theorem adjStep_ne {a b : Cell} (h : adjStep a b) : a ≠ b := by
  obtain ⟨m, hm, hx, hy, _⟩ := adjStep_inv h
  intro heq
  rw [heq] at hx hy
  fin_cases hm <;> dsimp only at hx hy <;> omega

theorem fvalR_eq (gn : Node) (e : ℤ × Node) :
    fvalR gn e = costValR e.2.cost + cellHeurR gn (nodeCell e.2) := rfl

theorem costValR_zero : costValR ((0 : ℚ), (0 : ℚ)) = 0 := by
  simp [costValR]

theorem chainCostR_singleton (c : Cell) : chainCostR [c] = 0 := by
  simp [chainCostR, chainCost, costValR]

theorem chainCostR_pair (a b : Cell) :
    chainCostR [a, b] = costValR (stepW a b) := by
  rw [chainCostR, show chainCost [a, b] =
    costAdd (stepW a b) (chainCost [b]) from rfl,
    show chainCost [b] = ((0 : ℚ), (0 : ℚ)) from rfl, costValR_add,
    costValR_zero, add_zero]

theorem nodeCell_eq_iff (n1 n2 : Node) :
    nodeCell n1 = nodeCell n2 ↔ n1.x = n2.x ∧ n1.y = n2.y := by
  rw [nodeCell, nodeCell, Prod.mk.injEq]

/-- One continuing iteration of the loop preserves the core invariant:
the popped node moves into the closed dict (growing it by exactly one
fresh key) and expansion rewrites the open dict as specified. -/
theorem core_preserve {g : AStarPlanner} {sc : Cell} (hwf : WFGrid g)
    {gn : Node} {openl closed : List (ℤ × Node)} {cur : Node}
    (hinv : InvCore g sc (openl, closed)) (hne : openl ≠ [])
    (hlk : dictLookup openl (argminKey gn openl) = some cur)
    (hng : ¬(cur.x = gn.x ∧ cur.y = gn.y)) :
    ∃ openl2, astarIter g gn openl closed =
        .ok (.inr (openl2, dictSet closed (argminKey gn openl) cur)) ∧
      expand g cur (argminKey gn openl)
        (dictSet closed (argminKey gn openl) cur)
        (dictDel openl (argminKey gn openl)) get_motion_model = .ok openl2 ∧
      InvCore g sc (openl2, dictSet closed (argminKey gn openl) cur) ∧
      (dictSet closed (argminKey gn openl) cur).length = closed.length + 1 := by
  set c_id := argminKey gn openl with hcid
  set closed2 := dictSet closed c_id cur with hcl2
  have hKfresh : dictLookup closed c_id = none := by
    rw [← Option.not_isSome_iff_eq_none]
    intro hs
    exact hinv.disj c_id ⟨by rw [hlk]; rfl, hs⟩
  have hset : closed2 = closed ++ [(c_id, cur)] := dictSet_fresh_append hKfresh
  have hcurmem : (c_id, cur) ∈ openl := dictLookup_mem hlk
  obtain ⟨openl2, hexp, hnd2, hU, hcov⟩ :=
    expand_spec hwf cur c_id closed2 get_motion_model (fun x hx => hx)
      (dictDel openl c_id)
  have hiter : astarIter g gn openl closed = .ok (.inr (openl2, closed2)) := by
    rw [astarIter, if_neg hne, ← hcid]
    simp only [hlk]
    rw [if_neg hng]
    simp only [Except.instMonad, Bind.bind, Except.bind, ← hcl2, hexp,
      pure, Except.pure]
  have hndO1 : ((dictDel openl c_id).map Prod.fst).Nodup :=
    nodup_keys_dictDel hinv.nodupO
  have hndO2 : (openl2.map Prod.fst).Nodup := hnd2 hndO1
  have hdel_sub : ∀ e ∈ dictDel openl c_id, e ∈ openl := fun e he =>
    (dictDel_sublist openl c_id).subset he
  have hmono : ∀ k n, dictLookup closed k = some n →
      dictLookup closed2 k = some n := lookup_dictSet_fresh_mono hKfresh
  have hmemC2 : ∀ e ∈ closed2, e ∈ closed ∨ e = (c_id, cur) := by
    rw [hset]
    intro e he
    rcases List.mem_append.mp he with h | h
    · exact Or.inl h
    · exact Or.inr (List.mem_singleton.mp h)
  have hOsrc : ∀ e ∈ openl2, e ∈ openl ∨ NewAt g cur c_id closed2 e.1 e.2 := by
    intro e he
    have hle := dictLookup_eq_of_mem_nodup he hndO2
    rcases hU e.1 with h | ⟨n2, h2, h3, h4⟩
    · rw [hle] at h
      exact Or.inl (hdel_sub _ (dictLookup_mem h.symm))
    · rw [hle] at h2
      obtain rfl := Option.some.inj h2
      exact Or.inr h3
  have hnotin : c_id ∉ closed.map Prod.fst := by
    rw [← dictLookup_isSome_iff, hKfresh]
    simp
  have hlen2 : closed2.length = closed.length + 1 := by
    rw [hset]
    simp
  have hcurkey : c_id = keyOf g (nodeCell cur) := hinv.keysO (c_id, cur) hcurmem
  have hcurcell : nodeCell cur = sc ∨ freeCell g (nodeCell cur) :=
    hinv.cellsO (c_id, cur) hcurmem
  obtain ⟨lcur, hchcur, hpathcur, hcostcur, hlencur⟩ :=
    hinv.chainO (c_id, cur) hcurmem
  refine ⟨openl2, hiter, hexp, ⟨hndO2, ?_, ?_, ?_, ?_, ?_, ?_, ?_, ?_⟩, hlen2⟩
  · rw [hset, List.map_append]
    simp [List.nodup_append, hinv.nodupC, hnotin]
  · intro k ⟨hko, hkc⟩
    rcases hU k with h | ⟨n2, h2, h3, h4⟩
    · rw [h] at hko
      by_cases hk : k = c_id
      · subst hk
        rw [dictLookup_dictDel_self hinv.nodupO] at hko
        simp at hko
      · rw [dictLookup_dictDel_ne hk] at hko
        rw [hcl2, dictLookup_dictSet_ne hk] at hkc
        exact hinv.disj k ⟨hko, hkc⟩
    · rw [h3.2.2.2.2.2] at hkc
      simp at hkc
  · intro e he
    rcases hOsrc e he with h | h
    · exact hinv.keysO e h
    · exact h.2.2.2.2.1
  · intro e he
    rcases hmemC2 e he with h | h
    · exact hinv.keysC e h
    · rw [h]
      exact hcurkey
  · intro e he
    rcases hOsrc e he with h | h
    · exact hinv.cellsO e h
    · exact Or.inr h.2.1
  · intro e he
    rcases hmemC2 e he with h | h
    · exact hinv.cellsC e h
    · rw [h]
      exact hcurcell
  · intro e he
    rcases hOsrc e he with h | h
    · obtain ⟨l, hch, hp, hc, hl⟩ := hinv.chainO e h
      have hl2 : l.length ≤ closed.length := hl
      refine ⟨l, chain_mono hmono hch, hp, hc, ?_⟩
      show l.length ≤ closed2.length
      omega
    · obtain ⟨hpar, hfree, hadj, hcost, hkey, hcls⟩ := h
      refine ⟨nodeCell cur :: lcur, ?_, ?_, ?_, ?_⟩
      · rw [hpar]
        exact Chain.cons dictLookup_dictSet_self (chain_mono hmono hchcur)
      · rw [List.reverse_cons]
        exact isPath_extend hpathcur hadj hfree
      · rw [List.reverse_cons]
        have hlast : (nodeCell cur :: lcur).reverse.getLast? =
            some (nodeCell cur) := by
          rw [List.getLast?_reverse]
          rfl
        rw [chainCost_append_single hlast, hcostcur, hcost]
      · show (nodeCell cur :: lcur).length ≤ closed2.length
        rw [List.length_cons]
        have hl2 : lcur.length ≤ closed.length := hlencur
        omega
  · intro e he
    rcases hmemC2 e he with h | h
    · obtain ⟨l, hch, hp, hc, hl⟩ := hinv.chainC e h
      have hl2 : l.length ≤ closed.length := hl
      refine ⟨l, chain_mono hmono hch, hp, hc, ?_⟩
      show l.length ≤ closed2.length
      omega
    · rw [h]
      have hl2 : lcur.length ≤ closed.length := hlencur
      refine ⟨lcur, chain_mono hmono hchcur, hpathcur, hcostcur, ?_⟩
      show lcur.length ≤ closed2.length
      omega

/-- In a state satisfying both invariants, every free path from the start
is accounted for: its endpoint is closed with dominated cost, or some
prefix of it ends at an open entry with dominated cost. -/
theorem path_frontier {g : AStarPlanner} {sc : Cell} {gn : Node}
    {s : OCState} (hc : InvCore g sc s) (ho : InvOpt g sc gn s)
    (hsc : freeCell g sc) :
    ∀ (l : List Cell) (c : Cell), IsPath g l sc c →
      (∃ n, dictLookup s.2 (keyOf g c) = some n ∧ nodeCell n = c ∧
        costValR n.cost ≤ chainCostR l) ∨
      (∃ (l1 l2 : List Cell) (v : Cell) (n : Node), l = l1 ++ l2 ∧
        l1.getLast? = some v ∧
        dictLookup s.1 (keyOf g v) = some n ∧ nodeCell n = v ∧
        costValR n.cost ≤ chainCostR l1) := by
  intro l
  induction l using List.reverseRecOn with
  | nil =>
      intro c hp
      exact absurd hp.1 (by simp)
  | append_singleton l a ihl =>
      intro c hp
      have hca : c = a := by
        have h2 := hp.2.1
        rw [List.getLast?_concat] at h2
        exact (Option.some.inj h2).symm
      subst hca
      cases hl : l with
      | nil =>
          subst hl
          have hsa : sc = c := by
            have h1 := hp.1
            simp only [List.nil_append, List.head?_cons,
              Option.some.injEq] at h1
            exact h1.symm
          subst hsa
          rcases ho.startOK with ⟨n, hn, hcell, hcost⟩ | ⟨n, hn, hcell, hcost⟩
          · refine Or.inr ⟨[sc], [], sc, n, by simp, by simp, hn, hcell, ?_⟩
            rw [chainCostR_singleton]
            exact hcost
          · refine Or.inl ⟨n, hn, hcell, ?_⟩
            rw [show ([] : List Cell) ++ [sc] = [sc] from rfl,
              chainCostR_singleton]
            exact hcost
      | cons b t =>
          subst hl
          have hlne : (b :: t : List Cell) ≠ [] := by simp
          obtain ⟨v0, ht⟩ := Option.isSome_iff_exists.mp
            (List.getLast?_isSome.mpr hlne)
          obtain ⟨hpl, hpta⟩ := isPath_split ht hp
          have hadjta : adjStep v0 c := by
            have h2 := hpta.2.2.1
            simp only [adjChain, Bool.and_eq_true, decide_eq_true_eq] at h2
            exact h2.1
          have hfreec : freeCell g c := by
            apply hpta.2.2.2
            simp
          rcases ihl v0 hpl with ⟨nt, hlkt, hcellt, hcostt⟩ |
            ⟨l1, l2, v, n, heq, hv, hn, hcelln, hcostn⟩
          · have hmemt : (keyOf g v0, nt) ∈ s.2 := dictLookup_mem hlkt
            obtain ⟨n, hor, hbound⟩ := ho.covC (keyOf g v0, nt) hmemt c
              (by rw [hcellt]; exact hadjta) hfreec
            rw [hcellt] at hbound
            have htot : costValR n.cost ≤ chainCostR (b :: t ++ [c]) := by
              rw [chainCostR_append [c] ht, chainCostR_pair]
              have := hcostt
              linarith
            rcases hor with hopen | hclosed
            · have hmemn : (keyOf g c, n) ∈ s.1 := dictLookup_mem hopen
              have hcn : nodeCell n = c := by
                apply cell_eq_of_key hsc (hc.cellsO _ hmemn) hfreec
                exact (hc.keysO _ hmemn).symm
              refine Or.inr ⟨b :: t ++ [c], [], c, n, by simp, ?_, hopen,
                hcn, htot⟩
              rw [List.getLast?_concat]
            · have hmemn : (keyOf g c, n) ∈ s.2 := dictLookup_mem hclosed
              have hcn : nodeCell n = c := by
                apply cell_eq_of_key hsc (hc.cellsC _ hmemn) hfreec
                exact (hc.keysC _ hmemn).symm
              exact Or.inl ⟨n, hclosed, hcn, htot⟩
          · refine Or.inr ⟨l1, l2 ++ [c], v, n, ?_, hv, hn, hcelln, hcostn⟩
            rw [heq, List.append_assoc]

/-- Pop-optimality: the minimum-`f` node of the open dict has optimal cost
for its cell, by the frontier account and the consistency telescope. -/
theorem pop_optimal {g : AStarPlanner} {sc : Cell} {gn : Node}
    {openl closed : List (ℤ × Node)} {cur : Node}
    (hc : InvCore g sc (openl, closed)) (ho : InvOpt g sc gn (openl, closed))
    (hsc : freeCell g sc) (hne : openl ≠ [])
    (hlk : dictLookup openl (argminKey gn openl) = some cur) :
    ∀ l, IsPath g l sc (nodeCell cur) → costValR cur.cost ≤ chainCostR l := by
  intro l hp
  obtain ⟨cur2, hlk2, hmin⟩ := argminKey_spec hne hc.nodupO
  rw [hlk] at hlk2
  obtain rfl := Option.some.inj hlk2
  have hcurmem : (argminKey gn openl, cur) ∈ openl := dictLookup_mem hlk
  have hcurkey : argminKey gn openl = keyOf g (nodeCell cur) :=
    hc.keysO _ hcurmem
  rcases path_frontier hc ho hsc l (nodeCell cur) hp with
    ⟨n, hlkc, hcellc, hcostc⟩ | ⟨l1, l2, v, n, heq, hv, hn, hcelln, hcostn⟩
  · exfalso
    apply hc.disj (keyOf g (nodeCell cur))
    constructor
    · rw [show dictLookup (openl, closed).1 (keyOf g (nodeCell cur)) =
        some cur from by rw [← hcurkey]; exact hlk]
      rfl
    · rw [show dictLookup (openl, closed).2 (keyOf g (nodeCell cur)) =
        some n from hlkc]
      rfl
  · have hmemn : (keyOf g v, n) ∈ openl := dictLookup_mem hn
    have hfle := hmin (keyOf g v, n) hmemn
    rw [fvalR_eq, fvalR_eq] at hfle
    simp only at hfle
    rw [hcelln] at hfle
    subst heq
    obtain ⟨hp1, hp2⟩ := isPath_split hv hp
    have htel := heur_telescope gn (v :: l2) v (nodeCell cur) rfl
      hp2.2.1 hp2.2.2.1
    have hsplit := chainCostR_append l2 hv
    have hcur2 : costValR cur.cost + cellHeurR gn (nodeCell cur) ≤
        costValR n.cost + cellHeurR gn v := hfle
    linarith

/-- One continuing iteration also preserves the optimality invariant. -/
theorem opt_preserve {g : AStarPlanner} {sc : Cell} (hwf : WFGrid g)
    {gn : Node} {openl closed : List (ℤ × Node)} {cur : Node}
    {openl2 : List (ℤ × Node)}
    (hc : InvCore g sc (openl, closed)) (ho : InvOpt g sc gn (openl, closed))
    (hsc : freeCell g sc) (hne : openl ≠ [])
    (hlk : dictLookup openl (argminKey gn openl) = some cur)
    (hng : ¬(cur.x = gn.x ∧ cur.y = gn.y))
    (hexp : expand g cur (argminKey gn openl)
        (dictSet closed (argminKey gn openl) cur)
        (dictDel openl (argminKey gn openl)) get_motion_model = .ok openl2) :
    InvOpt g sc gn (openl2, dictSet closed (argminKey gn openl) cur) := by
  set c_id := argminKey gn openl with hcid
  set closed2 := dictSet closed c_id cur with hcl2
  have hKfresh : dictLookup closed c_id = none := by
    rw [← Option.not_isSome_iff_eq_none]
    intro hs
    exact hc.disj c_id ⟨by rw [hlk]; rfl, hs⟩
  have hset : closed2 = closed ++ [(c_id, cur)] := dictSet_fresh_append hKfresh
  have hmono : ∀ k n, dictLookup closed k = some n →
      dictLookup closed2 k = some n := lookup_dictSet_fresh_mono hKfresh
  have hmemC2 : ∀ e ∈ closed2, e ∈ closed ∨ e = (c_id, cur) := by
    rw [hset]
    intro e he
    rcases List.mem_append.mp he with h | h
    · exact Or.inl h
    · exact Or.inr (List.mem_singleton.mp h)
  have hcurmem : (c_id, cur) ∈ openl := dictLookup_mem hlk
  have hcurkey : c_id = keyOf g (nodeCell cur) := hc.keysO (c_id, cur) hcurmem
  have hcurcell : nodeCell cur = sc ∨ freeCell g (nodeCell cur) :=
    hc.cellsO (c_id, cur) hcurmem
  obtain ⟨lcur, hchcur, hpathcur, hcostcur, hlencur⟩ :=
    hc.chainO (c_id, cur) hcurmem
  have hpop := pop_optimal hc ho hsc hne hlk
  obtain ⟨openl2x, hexpx, hndx, hU, hcov⟩ :=
    expand_spec hwf cur c_id closed2 get_motion_model (fun x hx => hx)
      (dictDel openl c_id)
  have hoo : openl2x = openl2 := by
    have h2 : Except.ok (ε := PyErr) openl2x = .ok openl2 :=
      hexpx.symm.trans hexp
    injection h2
  subst hoo
  refine ⟨?_, ?_, ?_, ?_⟩
  · rcases ho.startOK with ⟨n, hn, hcell, hcost⟩ | ⟨n, hn, hcell, hcost⟩
    · by_cases hks : keyOf g sc = c_id
      · rw [hks] at hn
        have hncur : n = cur := by
          have h2 := hn.symm.trans hlk
          injection h2
        subst hncur
        refine Or.inr ⟨n, ?_, hcell, hcost⟩
        rw [hks]
        exact dictLookup_dictSet_self
      · rcases hU (keyOf g sc) with h | ⟨n2, h2, h3, h4⟩
        · refine Or.inl ⟨n, ?_, hcell, hcost⟩
          rw [h, dictLookup_dictDel_ne hks]
          exact hn
        · have hlkdel : dictLookup (dictDel openl c_id) (keyOf g sc) =
              some n := by
            rw [dictLookup_dictDel_ne hks]
            exact hn
          have hb := h4 n hlkdel
          have hcn2 : nodeCell n2 = sc := by
            apply cell_eq_of_key hsc (Or.inr h3.2.1) hsc
            exact h3.2.2.2.2.1.symm
          exact Or.inl ⟨n2, h2, hcn2, hb.trans hcost⟩
    · exact Or.inr ⟨n, hmono _ _ hn, hcell, hcost⟩
  · intro e he
    rcases hmemC2 e he with h | h
    · exact ho.optC e h
    · rw [h]
      exact hpop
  · intro e he c hadj hfree
    rcases hmemC2 e he with h | h
    · obtain ⟨n, hor, hbound⟩ := ho.covC e h c hadj hfree
      rcases hor with hopen | hclosed
      · by_cases hkc : keyOf g c = c_id
        · rw [hkc] at hopen
          have hncur : n = cur := by
            have h2 := hopen.symm.trans hlk
            injection h2
          subst hncur
          refine ⟨n, Or.inr ?_, hbound⟩
          rw [hkc]
          exact dictLookup_dictSet_self
        · rcases hU (keyOf g c) with h2 | ⟨n2, h2, h3, h4⟩
          · refine ⟨n, Or.inl ?_, hbound⟩
            rw [h2, dictLookup_dictDel_ne hkc]
            exact hopen
          · have hlkdel : dictLookup (dictDel openl c_id) (keyOf g c) =
                some n := by
              rw [dictLookup_dictDel_ne hkc]
              exact hopen
            exact ⟨n2, Or.inl h2, (h4 n hlkdel).trans hbound⟩
      · exact ⟨n, Or.inr (hmono _ _ hclosed), hbound⟩
    · rw [h] at hadj ⊢
      simp only at hadj ⊢
      obtain ⟨m, hm, hx, hy, hw⟩ := adjStep_inv hadj
      have hcpair : c = (cur.x + m.1, cur.y + m.2.1) := by
        have h1 : (nodeCell cur).1 = cur.x := rfl
        have h2 : (nodeCell cur).2 = cur.y := rfl
        rw [h1] at hx
        rw [h2] at hy
        exact Prod.ext hx hy
      cases hclc : dictLookup closed2 (keyOf g c) with
      | some n_c =>
          have hmemnc : (keyOf g c, n_c) ∈ closed2 := dictLookup_mem hclc
          rcases hmemC2 _ hmemnc with hold | hnew
          · have hcnc : nodeCell n_c = c := by
              apply cell_eq_of_key hsc (hc.cellsC _ hold) hfree
              exact (hc.keysC _ hold).symm
            have hext := isPath_extend hpathcur hadj hfree
            have hlastp : (nodeCell cur :: lcur).reverse.getLast? =
                some (nodeCell cur) := by
              rw [List.getLast?_reverse]
              rfl
            have hcostext : chainCostR ((nodeCell cur :: lcur).reverse ++ [c]) =
                costValR cur.cost + costValR (stepW (nodeCell cur) c) := by
              rw [chainCostR, chainCost_append_single hlastp, hcostcur,
                costValR_add]
            have hopt := ho.optC _ hold ((nodeCell cur :: lcur).reverse ++ [c])
              (by rw [hcnc]; exact hext)
            rw [hcostext] at hopt
            exact ⟨n_c, Or.inr rfl, hopt⟩
          · exfalso
            have hkeq : keyOf g c = c_id := by
              have := congrArg Prod.fst hnew
              exact this
            have hcellcur : nodeCell cur = c := by
              apply cell_eq_of_key hsc hcurcell hfree
              rw [← hcurkey, hkeq]
            exact adjStep_ne hadj hcellcur
      | none =>
          obtain ⟨n2, hlk2, hb2⟩ := hcov m hm
            (by rw [← hcpair]; exact hfree) (by rw [← hcpair]; exact hclc)
          rw [← hcpair] at hlk2 hb2
          exact ⟨n2, Or.inl hlk2, hb2⟩
  · intro e he
    rcases hmemC2 e he with h | h
    · exact ho.goalC e h
    · rw [h]
      intro heq
      exact hng ((nodeCell_eq_iff cur gn).mp heq)

theorem mem_keyFinset_start (g : AStarPlanner) (sc : Cell) :
    keyOf g sc ∈ keyFinset g sc :=
  Finset.mem_insert_self _ _

theorem mem_keyFinset_free {g : AStarPlanner} {sc c : Cell}
    (h : freeCell g c) : keyOf g c ∈ keyFinset g sc := by
  rw [keyFinset]
  apply Finset.mem_insert_of_mem
  apply Finset.mem_image.mpr
  refine ⟨(c.1.toNat, c.2.toNat), ?_, ?_⟩
  · rw [Finset.mem_product]
    obtain ⟨h1, h2, h3, h4, _⟩ := h
    constructor <;> rw [Finset.mem_range] <;> omega
  · obtain ⟨h1, h2, h3, h4, _⟩ := h
    have hc : (((c.1.toNat : ℤ)), ((c.2.toNat : ℤ))) = c := by
      rw [Prod.ext_iff]
      constructor <;> simp <;> omega
    simp only
    rw [hc]

theorem keyFinset_card (g : AStarPlanner) (sc : Cell) :
    (keyFinset g sc).card ≤ g.x_width.toNat * g.y_width.toNat + 1 := by
  rw [keyFinset]
  have h1 := Finset.card_insert_le (keyOf g sc)
    (((Finset.range g.x_width.toNat) ×ˢ
      (Finset.range g.y_width.toNat)).image
      (fun p => keyOf g ((p.1 : ℤ), (p.2 : ℤ))))
  have h2 := Finset.card_image_le
    (s := (Finset.range g.x_width.toNat) ×ˢ (Finset.range g.y_width.toNat))
    (f := fun p => keyOf g ((p.1 : ℤ), (p.2 : ℤ)))
  rw [Finset.card_product, Finset.card_range, Finset.card_range] at h2
  omega

/-- The closed dict never has more entries than there are closable cell
identifiers. -/
theorem closed_length_le {g : AStarPlanner} {sc : Cell} {s : OCState}
    (hc : InvCore g sc s) : s.2.length ≤ (keyFinset g sc).card := by
  have hsub : (s.2.map Prod.fst).toFinset ⊆ keyFinset g sc := by
    intro k hk
    obtain ⟨e, he, rfl⟩ := List.mem_map.mp (List.mem_toFinset.mp hk)
    rw [hc.keysC e he]
    rcases hc.cellsC e he with h | h
    · rw [h]
      exact mem_keyFinset_start g sc
    · exact mem_keyFinset_free h
  have h1 : (s.2.map Prod.fst).toFinset.card = (s.2.map Prod.fst).length :=
    List.toFinset_card_of_nodup hc.nodupC
  have h2 := Finset.card_le_card hsub
  rw [h1, List.length_map] at h2
  exact h2

/-- The loop's initial state satisfies the core invariant, from the start
cell the start node is built on. -/
theorem initCore (g : AStarPlanner) (sx sy : ℚ) :
    InvCore g (worldCell g sx sy) (initState g sx sy) := by
  refine ⟨by simp [initState], by simp [initState], ?_, ?_, ?_, ?_, ?_, ?_, ?_⟩
  · intro k ⟨_, hkc⟩
    rw [show (initState g sx sy).2 = [] from rfl, dictLookup_nil] at hkc
    simp at hkc
  · intro e he
    rw [show (initState g sx sy).1 =
      [(calc_grid_index g (startNode g sx sy), startNode g sx sy)] from rfl,
      List.mem_singleton] at he
    rw [he]
    rfl
  · intro e he
    rw [show (initState g sx sy).2 = [] from rfl] at he
    simp at he
  · intro e he
    rw [show (initState g sx sy).1 =
      [(calc_grid_index g (startNode g sx sy), startNode g sx sy)] from rfl,
      List.mem_singleton] at he
    rw [he]
    exact Or.inl rfl
  · intro e he
    rw [show (initState g sx sy).2 = [] from rfl] at he
    simp at he
  · intro e he
    rw [show (initState g sx sy).1 =
      [(calc_grid_index g (startNode g sx sy), startNode g sx sy)] from rfl,
      List.mem_singleton] at he
    rw [he]
    refine ⟨[], Chain.nil, ?_, rfl, by simp⟩
    exact isPath_singleton g _
  · intro e he
    rw [show (initState g sx sy).2 = [] from rfl] at he
    simp at he

/-- The loop's initial state satisfies the optimality invariant. -/
theorem initOpt (g : AStarPlanner) (sx sy : ℚ) (gn : Node) :
    InvOpt g (worldCell g sx sy) gn (initState g sx sy) := by
  refine ⟨?_, ?_, ?_, ?_⟩
  · refine Or.inl ⟨startNode g sx sy, ?_, rfl, le_of_eq costValR_zero⟩
    rw [show keyOf g (worldCell g sx sy) =
      calc_grid_index g (startNode g sx sy) from rfl]
    rw [show (initState g sx sy).1 =
      [(calc_grid_index g (startNode g sx sy), startNode g sx sy)] from rfl]
    rw [dictLookup_cons, if_pos rfl]
  · intro e he
    rw [show (initState g sx sy).2 = [] from rfl] at he
    simp at he
  · intro e he
    rw [show (initState g sx sy).2 = [] from rfl] at he
    simp at he
  · intro e he
    rw [show (initState g sx sy).2 = [] from rfl] at he
    simp at he

/-- When no free path connects the start cell to the goal cell, the loop
drains the open dict and breaks with the goal node unchanged. -/
theorem aloop_noPath {g : AStarPlanner} {sc : Cell} (hwf : WFGrid g)
    {gn : Node} (hnopath : ¬∃ l, IsPath g l sc (nodeCell gn)) :
    ∀ (fuel : ℕ) (openl closed : List (ℤ × Node)),
      InvCore g sc (openl, closed) →
      (keyFinset g sc).card + 1 ≤ fuel + closed.length →
      ∃ closedF, aloop g gn fuel openl closed = .ok (gn, closedF) := by
  intro fuel
  induction fuel with
  | zero =>
      intro openl closed hinv hbound
      exfalso
      have hle : closed.length ≤ (keyFinset g sc).card :=
        closed_length_le hinv
      omega
  | succ f ih =>
      intro openl closed hinv hbound
      by_cases hop : openl = []
      · subst hop
        refine ⟨closed, ?_⟩
        rw [aloop]
        have hit : astarIter g gn [] closed = .ok (.inl (gn, closed)) := by
          rw [astarIter, if_pos rfl]
        simp only [hit, Except.instMonad, Bind.bind, Except.bind, pure,
          Except.pure]
      · obtain ⟨cur, hlk, hmin⟩ := argminKey_spec hop hinv.nodupO
        have hng : ¬(cur.x = gn.x ∧ cur.y = gn.y) := by
          intro hxy
          apply hnopath
          obtain ⟨l, hch, hp, hcost, hlen⟩ :=
            hinv.chainO (argminKey gn openl, cur) (dictLookup_mem hlk)
          refine ⟨(nodeCell cur :: l).reverse, ?_⟩
          rw [show nodeCell gn = nodeCell cur from
            ((nodeCell_eq_iff cur gn).mpr hxy).symm]
          exact hp
        obtain ⟨openl2, hiter, hexp, hinv2, hlen2⟩ :=
          core_preserve hwf hinv hop hlk hng
        obtain ⟨closedF, hF⟩ := ih openl2 _ hinv2 (by omega)
        refine ⟨closedF, ?_⟩
        rw [aloop]
        simp only [hiter, Except.instMonad, Bind.bind, Except.bind]
        exact hF

/-- When a free path to the goal cell exists and both endpoints are free,
the loop breaks at the goal with a node of optimal cost carrying a valid
parent chain, and the closed dict keeps its bookkeeping facts. -/
theorem aloop_optimal {g : AStarPlanner} {sc : Cell} (hwf : WFGrid g)
    {gn : Node} (hsc : freeCell g sc)
    (hpath : ∃ l, IsPath g l sc (nodeCell gn)) :
    ∀ (fuel : ℕ) (openl closed : List (ℤ × Node)),
      InvCore g sc (openl, closed) → InvOpt g sc gn (openl, closed) →
      (keyFinset g sc).card + 1 ≤ fuel + closed.length →
      ∃ (cur : Node) (closedF : List (ℤ × Node)),
        aloop g gn fuel openl closed =
          .ok (⟨gn.x, gn.y, cur.cost, cur.parent_index⟩, closedF) ∧
        nodeCell cur = nodeCell gn ∧
        (∀ e ∈ closedF, e.1 = keyOf g (nodeCell e.2)) ∧
        (∀ e ∈ closedF, nodeCell e.2 = sc ∨ freeCell g (nodeCell e.2)) ∧
        (∃ l, Chain closedF cur.parent_index l ∧
          IsPath g ((nodeCell cur :: l).reverse) sc (nodeCell cur) ∧
          chainCost ((nodeCell cur :: l).reverse) = cur.cost ∧
          l.length ≤ closedF.length) ∧
        (∀ l, IsPath g l sc (nodeCell gn) →
          costValR cur.cost ≤ chainCostR l) := by
  intro fuel
  induction fuel with
  | zero =>
      intro openl closed hinv hopt hbound
      exfalso
      have hle : closed.length ≤ (keyFinset g sc).card :=
        closed_length_le hinv
      omega
  | succ f ih =>
      intro openl closed hinv hopt hbound
      by_cases hop : openl = []
      · exfalso
        obtain ⟨l0, hp0⟩ := hpath
        rcases path_frontier hinv hopt hsc l0 (nodeCell gn) hp0 with
          ⟨n, hlkc, hcellc, _⟩ | ⟨l1, l2, v, n, _, _, hn, _, _⟩
        · exact hopt.goalC (keyOf g (nodeCell gn), n)
            (dictLookup_mem hlkc) hcellc
        · subst hop
          rw [show dictLookup (([] : List (ℤ × Node)), closed).1 (keyOf g v) =
            none from rfl] at hn
          exact Option.noConfusion hn
      · obtain ⟨cur0, hlk, hmin⟩ := argminKey_spec hop hinv.nodupO
        set c_id := argminKey gn openl with hcid
        by_cases hg : cur0.x = gn.x ∧ cur0.y = gn.y
        · have hit : astarIter g gn openl closed =
              .ok (.inl (⟨gn.x, gn.y, cur0.cost, cur0.parent_index⟩,
                closed)) := by
            rw [astarIter, if_neg hop, ← hcid]
            simp only [hlk]
            rw [if_pos hg]
          refine ⟨cur0, closed, ?_, (nodeCell_eq_iff cur0 gn).mpr hg,
            fun e he => hinv.keysC e he, fun e he => hinv.cellsC e he,
            ?_, ?_⟩
          · rw [aloop]
            simp only [hit, Except.instMonad, Bind.bind, Except.bind, pure,
              Except.pure]
          · exact hinv.chainO (argminKey gn openl, cur0) (dictLookup_mem hlk)
          · intro l hl
            apply pop_optimal hinv hopt hsc hop hlk
            rw [show nodeCell cur0 = nodeCell gn from
              (nodeCell_eq_iff cur0 gn).mpr hg]
            exact hl
        · obtain ⟨openl2, hiter, hexp, hinv2, hlen2⟩ :=
            core_preserve hwf hinv hop hlk hg
          have hopt2 := opt_preserve hwf hinv hopt hsc hop hlk hg hexp
          obtain ⟨cur, closedF, hF, hcell, hkeys, hcells, hchain, hopt3⟩ :=
            ih openl2 _ hinv2 hopt2 (by omega)
          refine ⟨cur, closedF, ?_, hcell, hkeys, hcells, hchain, hopt3⟩
          rw [aloop]
          simp only [hiter, Except.instMonad, Bind.bind, Except.bind]
          exact hF

/-- The parent-chain loop of `calc_final_path` follows a `Chain` exactly,
emitting the chain's world positions, provided no key on the chain
collides with the `-1` sentinel. -/
theorem cfp_chain {g : AStarPlanner} {closed : List (ℤ × Node)}
    (hk : ∀ e ∈ closed, e.1 ≠ -1) :
    ∀ {k : ℤ} {l : List Cell}, Chain closed k l →
    ∀ fuel : ℕ, l.length ≤ fuel → ∀ rx ry : List ℚ,
      cfp_loop g closed fuel k rx ry =
        .ok (rx ++ l.map (fun c => calc_grid_position g c.1 g.min_x),
             ry ++ l.map (fun c => calc_grid_position g c.2 g.min_y)) := by
  intro k l hch
  induction hch with
  | nil =>
      intro fuel hf rx ry
      cases fuel with
      | zero =>
          rw [cfp_loop, if_pos rfl]
          simp
      | succ f =>
          rw [cfp_loop, if_pos rfl]
          simp
  | cons hlk hch2 ih =>
      rename_i k2 n l2
      intro fuel hf rx ry
      have hkne : k2 ≠ -1 := hk (k2, n) (dictLookup_mem hlk)
      cases fuel with
      | zero => simp at hf
      | succ f =>
          rw [cfp_loop, if_neg hkne]
          simp only [hlk]
          rw [ih f (by simp at hf; omega) (rx ++ [calc_grid_position g n.x
            g.min_x]) (ry ++ [calc_grid_position g n.y g.min_y])]
          have hx : calc_grid_position g (nodeCell n).1 g.min_x =
              calc_grid_position g n.x g.min_x := rfl
          have hy : calc_grid_position g (nodeCell n).2 g.min_y =
              calc_grid_position g n.y g.min_y := rfl
          simp only [List.map_cons, hx, hy, List.append_assoc,
            List.singleton_append]

/-- C2 (amended): when the start and goal cells are not connected in the
8-connected free-space graph, `planning` terminates by draining the open
set, but it does not return a distinguishable "no path" sentinel: it
returns the same single-waypoint path at the goal cell that a successful
start-equals-goal query returns. -/
theorem C2_amended (g : AStarPlanner) (sx sy gx gy : ℚ) (hwf : WFGrid g)
    (hnopath : ¬∃ l, IsPath g l (worldCell g sx sy) (worldCell g gx gy)) :
    planning g sx sy gx gy =
      .ok ([calc_grid_position g (calc_xy_index g gx g.min_x) g.min_x],
           [calc_grid_position g (calc_xy_index g gy g.min_y) g.min_y]) := by
  have hgn : nodeCell (goalNode g gx gy) = worldCell g gx gy := rfl
  have hinit := initCore g sx sy
  have hbound : (keyFinset g (worldCell g sx sy)).card + 1 ≤
      planFuel g + ([] : List (ℤ × Node)).length := by
    have := keyFinset_card g (worldCell g sx sy)
    rw [planFuel]
    simp only [List.length_nil]
    omega
  obtain ⟨closedF, hF⟩ := aloop_noPath hwf (by rw [hgn]; exact hnopath)
    (planFuel g) (initState g sx sy).1 (initState g sx sy).2
    (by rw [show ((initState g sx sy).1, (initState g sx sy).2) =
      initState g sx sy from rfl]; exact hinit) hbound
  rw [planning]
  simp only [Except.instMonad, Bind.bind, Except.bind]
  rw [show ([(calc_grid_index g ⟨calc_xy_index g sx g.min_x,
      calc_xy_index g sy g.min_y, ((0 : ℚ), (0 : ℚ)), (-1 : ℤ)⟩,
      (⟨calc_xy_index g sx g.min_x, calc_xy_index g sy g.min_y,
      ((0 : ℚ), (0 : ℚ)), (-1 : ℤ)⟩ : Node))] : List (ℤ × Node)) =
    (initState g sx sy).1 from rfl]
  rw [show (⟨calc_xy_index g gx g.min_x, calc_xy_index g gy g.min_y,
      ((0 : ℚ), (0 : ℚ)), (-1 : ℤ)⟩ : Node) = goalNode g gx gy from rfl]
  rw [show ([] : List (ℤ × Node)) = (initState g sx sy).2 from rfl]
  simp only [hF]
  show calc_final_path g (goalNode g gx gy) closedF =
    .ok ([calc_grid_position g (calc_xy_index g gx g.min_x) g.min_x],
         [calc_grid_position g (calc_xy_index g gy g.min_y) g.min_y])
  rw [calc_final_path]
  rw [show (goalNode g gx gy).parent_index = -1 from rfl]
  rw [cfp_loop, if_pos rfl]
  rfl

unseal Rat.add Rat.sub Rat.mul Rat.inv in
/-- Witness for C2 (amended): a 2-by-2 grid whose goal cell is blocked. -/
theorem C2_amended_witness :
    planning ⟨1, 0, 0, 0, 2, 2, 2, 2,
      [[false, false], [false, true]]⟩ 0 0 1 1 =
      .ok ([calc_grid_position ⟨1, 0, 0, 0, 2, 2, 2, 2,
          [[false, false], [false, true]]⟩
          (calc_xy_index ⟨1, 0, 0, 0, 2, 2, 2, 2,
            [[false, false], [false, true]]⟩ 1 0) 0],
        [calc_grid_position ⟨1, 0, 0, 0, 2, 2, 2, 2,
          [[false, false], [false, true]]⟩
          (calc_xy_index ⟨1, 0, 0, 0, 2, 2, 2, 2,
            [[false, false], [false, true]]⟩ 1 0) 0]) := by
  apply C2_amended ⟨1, 0, 0, 0, 2, 2, 2, 2, [[false, false], [false, true]]⟩
    0 0 1 1 (by decide)
  intro ⟨l, hp⟩
  have hne : worldCell ⟨1, 0, 0, 0, 2, 2, 2, 2,
      [[false, false], [false, true]]⟩ 0 0 ≠
    worldCell ⟨1, 0, 0, 0, 2, 2, 2, 2, [[false, false], [false, true]]⟩
      1 1 := by decide
  have hfree := isPath_last_free hp hne
  revert hfree
  decide

/-- C1 (amended): on a well-formed grid none of whose free cells has the
`-1` sentinel as identifier, if the start and goal world coordinates snap
to free cells connected in the 8-connected free-space graph, `planning`
returns the waypoint trace (in goal-to-start order) of a cell sequence
whose reverse is an 8-connected free path from the start cell to the goal
cell of minimal total step cost. -/
theorem C1_amended (g : AStarPlanner) (sx sy gx gy : ℚ)
    (hwf : WFGrid g) (hns : NoSentinel g)
    (hsc : freeCell g (worldCell g sx sy))
    (hgc : freeCell g (worldCell g gx gy))
    (hconn : ∃ l, IsPath g l (worldCell g sx sy) (worldCell g gx gy)) :
    ∃ (p : List Cell) (rx ry : List ℚ),
      planning g sx sy gx gy = .ok (rx, ry) ∧
      rx = p.map (fun c => calc_grid_position g c.1 g.min_x) ∧
      ry = p.map (fun c => calc_grid_position g c.2 g.min_y) ∧
      IsPath g p.reverse (worldCell g sx sy) (worldCell g gx gy) ∧
      ∀ l, IsPath g l (worldCell g sx sy) (worldCell g gx gy) →
        chainCostR p.reverse ≤ chainCostR l := by
  have hgn : nodeCell (goalNode g gx gy) = worldCell g gx gy := rfl
  have hbound : (keyFinset g (worldCell g sx sy)).card + 1 ≤
      planFuel g + ([] : List (ℤ × Node)).length := by
    have := keyFinset_card g (worldCell g sx sy)
    rw [planFuel]
    simp only [List.length_nil]
    omega
  obtain ⟨cur, closedF, hF, hcell, hkeys, hcells,
      ⟨lch, hch, hp, hcost, hlen⟩, hopt⟩ :=
    aloop_optimal hwf hsc (by rw [hgn]; exact hconn)
      (planFuel g) (initState g sx sy).1 (initState g sx sy).2
      (by rw [show ((initState g sx sy).1, (initState g sx sy).2) =
        initState g sx sy from rfl]; exact initCore g sx sy)
      (by rw [show ((initState g sx sy).1, (initState g sx sy).2) =
        initState g sx sy from rfl]; exact initOpt g sx sy _) hbound
  refine ⟨nodeCell cur :: lch,
    (nodeCell cur :: lch).map (fun c => calc_grid_position g c.1 g.min_x),
    (nodeCell cur :: lch).map (fun c => calc_grid_position g c.2 g.min_y),
    ?_, rfl, rfl, ?_, ?_⟩
  · rw [planning]
    simp only [Except.instMonad, Bind.bind, Except.bind]
    rw [show ([(calc_grid_index g ⟨calc_xy_index g sx g.min_x,
        calc_xy_index g sy g.min_y, ((0 : ℚ), (0 : ℚ)), (-1 : ℤ)⟩,
        (⟨calc_xy_index g sx g.min_x, calc_xy_index g sy g.min_y,
        ((0 : ℚ), (0 : ℚ)), (-1 : ℤ)⟩ : Node))] : List (ℤ × Node)) =
      (initState g sx sy).1 from rfl]
    rw [show (⟨calc_xy_index g gx g.min_x, calc_xy_index g gy g.min_y,
        ((0 : ℚ), (0 : ℚ)), (-1 : ℤ)⟩ : Node) = goalNode g gx gy from rfl]
    rw [show ([] : List (ℤ × Node)) = (initState g sx sy).2 from rfl]
    simp only [hF]
    show calc_final_path g
      (⟨(goalNode g gx gy).x, (goalNode g gx gy).y, cur.cost,
        cur.parent_index⟩ : Node) closedF = _
    rw [calc_final_path]
    show cfp_loop g closedF (closedF.length + 1) cur.parent_index
      [calc_grid_position g (goalNode g gx gy).x g.min_x]
      [calc_grid_position g (goalNode g gx gy).y g.min_y] = _
    have hknz : ∀ e ∈ closedF, e.1 ≠ -1 := by
      intro e he
      rw [hkeys e he]
      rcases hcells e he with h | h
      · rw [h]
        exact hns _ hsc
      · exact hns _ h
    rw [cfp_chain hknz hch (closedF.length + 1) (by omega)]
    have hcx : cur.x = (goalNode g gx gy).x := congrArg Prod.fst hcell
    have hcy : cur.y = (goalNode g gx gy).y := congrArg Prod.snd hcell
    have hp1 : (nodeCell cur).1 = cur.x := rfl
    have hp2 : (nodeCell cur).2 = cur.y := rfl
    simp only [List.map_cons, hp1, hp2, hcx, hcy, List.singleton_append]
  · rw [show worldCell g gx gy = nodeCell cur from (hcell.trans hgn).symm]
    exact hp
  · intro l hl
    rw [show chainCostR ((nodeCell cur :: lch).reverse) =
      costValR cur.cost from by rw [chainCostR, hcost]]
    exact hopt l (by rw [hgn]; exact hl)

unseal Rat.add Rat.sub Rat.mul Rat.inv in
/-- Witness for C1 (amended): an obstacle-free 10-by-10 grid with origin
at zero, start cell `(0,0)` and goal cell `(2,2)`. -/
theorem C1_amended_witness :
    ∃ (p : List Cell) (rx ry : List ℚ),
      planning ⟨1, 0, 0, 0, 10, 10, 10, 10,
          List.replicate 10 (List.replicate 10 false)⟩ 0 0 2 2 =
        .ok (rx, ry) ∧
      rx = p.map (fun c => calc_grid_position ⟨1, 0, 0, 0, 10, 10, 10, 10,
        List.replicate 10 (List.replicate 10 false)⟩ c.1 0) ∧
      ry = p.map (fun c => calc_grid_position ⟨1, 0, 0, 0, 10, 10, 10, 10,
        List.replicate 10 (List.replicate 10 false)⟩ c.2 0) ∧
      IsPath ⟨1, 0, 0, 0, 10, 10, 10, 10,
          List.replicate 10 (List.replicate 10 false)⟩ p.reverse
        (worldCell ⟨1, 0, 0, 0, 10, 10, 10, 10,
          List.replicate 10 (List.replicate 10 false)⟩ 0 0)
        (worldCell ⟨1, 0, 0, 0, 10, 10, 10, 10,
          List.replicate 10 (List.replicate 10 false)⟩ 2 2) ∧
      ∀ l, IsPath ⟨1, 0, 0, 0, 10, 10, 10, 10,
          List.replicate 10 (List.replicate 10 false)⟩ l
        (worldCell ⟨1, 0, 0, 0, 10, 10, 10, 10,
          List.replicate 10 (List.replicate 10 false)⟩ 0 0)
        (worldCell ⟨1, 0, 0, 0, 10, 10, 10, 10,
          List.replicate 10 (List.replicate 10 false)⟩ 2 2) →
        chainCostR p.reverse ≤ chainCostR l := by
  apply C1_amended ⟨1, 0, 0, 0, 10, 10, 10, 10,
    List.replicate 10 (List.replicate 10 false)⟩ 0 0 2 2
  · decide
  · intro c hfree
    have h1 : (0 : ℤ) ≤ c.1 := hfree.1
    have h2 : c.1 < 10 := hfree.2.1
    show (c.2 - 0) * 10 + (c.1 - 0) ≠ -1
    have h3 : (0 : ℤ) ≤ c.2 := hfree.2.2.1
    omega
  · decide
  · decide
  · exact ⟨[((0 : ℤ), (0 : ℤ)), ((1 : ℤ), (1 : ℤ)), ((2 : ℤ), (2 : ℤ))],
      by decide⟩

end NeuroPF
